import Mathlib

set_option maxHeartbeats 1000000

/-!
# Verification of a Hopcroft–Karp bipartite matching implementation

Shallow embedding of `src/hopkroft-karp.ts`:

* `createBipartiteGraph` — the graph builder with its validation options;
* `HopcroftKarp.findMaximumMatching` / `findPerfectMatching` — the matching
  engine, translated as pure functions over an explicit `HKState`
  (`matchLeft`, `matchRight`, `dist`).

JavaScript numbers that can hold `Infinity` (the `dist` array) are modelled as
`Option Nat` with `none` standing for `Infinity`.  Vertex indices and the
entries of the match arrays are `Int` (the sentinel `NIL` is `-1`).

The source's `while (this.bfs())` loop and the recursive `dfs` have no
syntactic termination measure, so they are embedded with an explicit fuel
that is large enough; lemmas below show the fuel is never exhausted on the
runs the theorems speak about, so the embedding agrees with the source there.
-/

/-- JS `<` on `{number} ∪ {Infinity}`; `none` is `Infinity`. -/
def oLt : Option Nat → Option Nat → Bool
  | some a, some b => a < b
  | some _, none => true
  | none, _ => false

/-- JS `+ 1` on `{number} ∪ {Infinity}`; `Infinity + 1 = Infinity`. -/
def oAdd1 : Option Nat → Option Nat
  | some a => some (a + 1)
  | none => none

/-- JS `===` on `{number} ∪ {Infinity}`. -/
def oEq : Option Nat → Option Nat → Bool
  | some a, some b => a == b
  | none, none => true
  | _, _ => false

/-- The `BipartiteGraph` interface: partition sizes and adjacency lists.
Sizes are `Int` because the builder accepts (and, with validation disabled,
passes through) arbitrary integers. -/
structure BipartiteGraph where
  leftSize : Int
  rightSize : Int
  edges : List (List Int)
deriving Repr, DecidableEq

/-- The `Matching` interface returned by the engine. -/
structure Matching where
  matchLeft : List Int
  matchRight : List Int
  size : Nat
deriving Repr, DecidableEq

/-- The engine's mutable working state (`matchLeft`, `matchRight`, `dist`). -/
structure HKState where
  matchLeft : List Int
  matchRight : List Int
  dist : List (Option Nat)
deriving Repr, DecidableEq

/-- `graph.leftSize` as a natural number (the engine's loop bound). -/
def BipartiteGraph.L (g : BipartiteGraph) : Nat := g.leftSize.toNat

/-- `this.graph.edges[u]`. -/
def adj (g : BipartiteGraph) (u : Nat) : List Int := g.edges.getD u []

/-- The `HopcroftKarp` constructor: match arrays filled with `NIL = -1`,
`dist` of length `leftSize + 1` filled with `0`. -/
def initState (g : BipartiteGraph) : HKState :=
  ⟨List.replicate g.L (-1), List.replicate g.rightSize.toNat (-1),
   List.replicate (g.L + 1) (some 0)⟩

/-! ## BFS (`private bfs()`)

`bfs` overwrites every entry of `dist` (indices `0 .. leftSize`) before the
queue loop, so the produced `dist` is a function of the current matching. -/

/-- Distance initialisation: free left vertices get `0`, matched ones and the
virtual sink (index `leftSize`, the final `++ [none]`) get `Infinity`. -/
def bfsInitDist (matchLeft : List Int) : List (Option Nat) :=
  matchLeft.map (fun m => if m = -1 then some 0 else none) ++ [none]

/-- Initial queue: the free left vertices, in increasing order. -/
def bfsInitQueue (matchLeft : List Int) : List Nat :=
  (List.range matchLeft.length).filter (fun u => matchLeft.getD u 0 = -1)

/-- The ternary `matchedU === NIL ? this.graph.leftSize : matchedU` as a slot
of the `dist` array. -/
def tgtOf (L : Nat) (mU : Int) : Nat := if mU = -1 then L else mU.toNat

/-- The same ternary kept as a JS index value (possibly out of range). -/
def nextOf (L : Nat) (mU : Int) : Int := if mU = -1 then (L : Int) else mU

/-- The inner `for (const v of this.graph.edges[u])` of `bfs`: skips
out-of-range `v`, relabels the vertex matched to `v` (or the sink) if its
distance is still `Infinity`, and records the vertices to enqueue. -/
def bfsScanGo (rs : Int) (L : Nat) (matchRight : List Int) (u : Nat) :
    List Int → List (Option Nat) → List Nat → List (Option Nat) × List Nat
  | [], dist, app => (dist, app)
  | v :: vs, dist, app =>
    if v < 0 ∨ rs ≤ v then bfsScanGo rs L matchRight u vs dist app
    else
      let mU := matchRight.getD v.toNat 0
      if dist.getD (tgtOf L mU) none = none then
        let dist' := dist.set (tgtOf L mU) (oAdd1 (dist.getD u none))
        if mU = -1 then bfsScanGo rs L matchRight u vs dist' app
        else bfsScanGo rs L matchRight u vs dist' (app ++ [mU.toNat])
      else bfsScanGo rs L matchRight u vs dist app

/-- The `while (queue.length > 0)` loop of `bfs`.  Each step either dequeues
without expanding (distance not below the sink's) or expands one vertex; the
fuel passed by `bfsDist` dominates the loop's decreasing measure. -/
def bfsLoopF (g : BipartiteGraph) (matchRight : List Int) :
    Nat → List (Option Nat) → List Nat → List (Option Nat)
  | 0, dist, _ => dist
  | _ + 1, dist, [] => dist
  | fuel + 1, dist, u :: queue =>
    if oLt (dist.getD u none) (dist.getD g.L none) then
      let p := bfsScanGo g.rightSize g.L matchRight u (adj g u) dist []
      bfsLoopF g matchRight fuel p.1 (queue ++ p.2)
    else bfsLoopF g matchRight fuel dist queue

/-- The `dist` array produced by one call of `bfs`. -/
def bfsDist (g : BipartiteGraph) (matchLeft matchRight : List Int) : List (Option Nat) :=
  bfsLoopF g matchRight (2 * g.L + 2) (bfsInitDist matchLeft) (bfsInitQueue matchLeft)

/-- `bfs`'s return value: `this.dist[this.graph.leftSize] !== Infinity`. -/
def bfsReachable (g : BipartiteGraph) (dist : List (Option Nat)) : Bool :=
  (dist.getD g.L none).isSome

/-! ## DFS (`private dfs(u)`) -/

/-- The comparison `this.dist[next] === this.dist[u] + 1` where `next` may be
any integer: an out-of-range index reads `undefined`, which is `===` to no
number. -/
def distCheck (dist : List (Option Nat)) (next : Int) (du : Option Nat) : Bool :=
  if 0 ≤ next ∧ next.toNat < dist.length then oEq (dist.getD next.toNat none) (oAdd1 du)
  else false

/-- The neighbour loop of `dfs(u)`: skip out-of-range `v`; recurse into the
vertex matched to `v` (the sink if `v` is free); on success flip the edge into
the matching; after an exhausted loop mark `dist[u] = Infinity`. -/
def dfsGo (g : BipartiteGraph) (rec : Nat → HKState → Bool × HKState) (u : Nat) :
    List Int → HKState → Bool × HKState
  | [], s => (false, { s with dist := s.dist.set u none })
  | v :: vs, s =>
    if v < 0 ∨ g.rightSize ≤ v then dfsGo g rec u vs s
    else
      let mU := s.matchRight.getD v.toNat 0
      if distCheck s.dist (nextOf g.L mU) (s.dist.getD u none) then
        match rec (nextOf g.L mU).toNat s with
        | (true, s') =>
          (true, { s' with matchRight := s'.matchRight.set v.toNat u,
                           matchLeft := s'.matchLeft.set u v })
        | (false, s') => dfsGo g rec u vs s'
      else dfsGo g rec u vs s

/-- `dfs(u)` with fuel bounding the recursion depth (the source recursion is
bounded by the strictly increasing `dist` values along a call chain). -/
def dfsF (g : BipartiteGraph) : Nat → Nat → HKState → Bool × HKState
  | 0, _, s => (false, s)
  | fuel + 1, u, s =>
    if u = g.L then (true, s)
    else dfsGo g (dfsF g fuel) u (adj g u) s

/-! ## The phase loop (`findMaximumMatching`) -/

/-- One augmentation pass: `for (u = 0; u < leftSize; u++) if (matchLeft[u]
=== NIL && dfs(u)) matchingSize++`. -/
def passGo (g : BipartiteGraph) (fuel : Nat) :
    List Nat → HKState → Nat → HKState × Nat
  | [], s, c => (s, c)
  | u :: us, s, c =>
    if s.matchLeft.getD u 0 = -1 then
      match dfsF g fuel u s with
      | (true, s') => passGo g fuel us s' (c + 1)
      | (false, s') => passGo g fuel us s' c
    else passGo g fuel us s c

/-- `while (this.bfs()) { ...pass... }`.  A successful phase strictly grows
the matching (proved below), so `leftSize + 1` rounds of fuel always reach the
`bfs() === false` exit the source loop stops at. -/
def hkLoop (g : BipartiteGraph) : Nat → HKState → Nat → HKState × Nat
  | 0, s, c => (s, c)
  | fuel + 1, s, c =>
    let dist := bfsDist g s.matchLeft s.matchRight
    if bfsReachable g dist then
      let p := passGo g (g.L + 2) (List.range g.L) { s with dist := dist } c
      hkLoop g fuel p.1 p.2
    else ({ s with dist := dist }, c)

/-- `findMaximumMatching()` run from an arbitrary engine state: returns the
snapshot (with `size` the number of augmentations made by THIS call) and the
engine state left behind. -/
def findMaximumMatchingFrom (g : BipartiteGraph) (s : HKState) : Matching × HKState :=
  let p := hkLoop g (g.L + 1) s 0
  (⟨p.1.matchLeft, p.1.matchRight, p.2⟩, p.1)

/-- `new HopcroftKarp(graph).findMaximumMatching()`. -/
def findMaximumMatching (g : BipartiteGraph) : Matching :=
  (findMaximumMatchingFrom g (initState g)).1

/-- `findPerfectMatching()` from an arbitrary engine state. -/
def findPerfectMatchingFrom (g : BipartiteGraph) (s : HKState) :
    Option Matching × HKState :=
  let p := findMaximumMatchingFrom g s
  (if (p.1.size : Int) = g.leftSize ∧ (p.1.size : Int) = g.rightSize then some p.1 else none,
   p.2)

/-- `new HopcroftKarp(graph).findPerfectMatching()`. -/
def findPerfectMatching (g : BipartiteGraph) : Option Matching :=
  (findPerfectMatchingFrom g (initState g)).1

/-! ## The graph builder (`createBipartiteGraph`) -/

/-- `BipartiteGraphError`: the single error class; the two spec error kinds
are distinguished by the message. -/
structure BipartiteGraphError where
  message : String
deriving Repr, DecidableEq

/-- `BipartiteGraphOptions` with its two optional flags. -/
structure BipartiteGraphOptions where
  validateInput : Option Bool := none
  skipInvalidEdges : Option Bool := none
deriving Repr, DecidableEq

/-- The message thrown for an out-of-range edge. -/
def invalidEdgeMessage (u v ls rs : Int) : String :=
  "Invalid edge [" ++ toString u ++ ", " ++ toString v ++
    "]: indices must be within ranges [0, " ++ toString (ls - 1) ++ "] and [0, " ++
    toString (rs - 1) ++ "]"

/-- The message thrown for a negative `leftSize`. -/
def invalidLeftSizeMessage (ls : Int) : String :=
  "leftSize must be non-negative, got " ++ toString ls

/-- The message thrown for a negative `rightSize`. -/
def invalidRightSizeMessage (rs : Int) : String :=
  "rightSize must be non-negative, got " ++ toString rs

/-- The edge loop of `createBipartiteGraph`: out-of-range edges either raise
(validation on, skipping off) or are dropped; in-range edges are appended to
`adjacencyList[u]`. -/
def addEdges (validate skip : Bool) (ls rs : Int) :
    List (Int × Int) → List (List Int) → Except BipartiteGraphError (List (List Int))
  | [], acc => .ok acc
  | (u, v) :: rest, acc =>
    if u < 0 ∨ ls ≤ u ∨ v < 0 ∨ rs ≤ v then
      if validate ∧ ¬skip then .error ⟨invalidEdgeMessage u v ls rs⟩
      else addEdges validate skip ls rs rest acc
    else addEdges validate skip ls rs rest (acc.set u.toNat (acc.getD u.toNat [] ++ [v]))

/-- `createBipartiteGraph(leftSize, rightSize, edges, options)`. -/
def createBipartiteGraph (leftSize rightSize : Int) (edges : List (Int × Int))
    (options : BipartiteGraphOptions := {}) : Except BipartiteGraphError BipartiteGraph :=
  let validate := options.validateInput.getD true
  let skip := options.skipInvalidEdges.getD true
  if validate ∧ leftSize < 0 then .error ⟨invalidLeftSizeMessage leftSize⟩
  else if validate ∧ rightSize < 0 then .error ⟨invalidRightSizeMessage rightSize⟩
  else
    match addEdges validate skip leftSize rightSize edges
        (List.replicate leftSize.toNat []) with
    | .ok acc => .ok ⟨leftSize, rightSize, acc⟩
    | .error e => .error e

/-- The graph with every out-of-range adjacency entry removed; the engine's
guards make it compute the same matching (theorem for C7 below). -/
def sanitizeGraph (g : BipartiteGraph) : BipartiteGraph :=
  ⟨g.leftSize, g.rightSize,
   g.edges.map (List.filter (fun v => if v < 0 ∨ g.rightSize ≤ v then false else true))⟩

/-! ## Derived definitions used in the specification theorems -/

/-- `graph.rightSize` as a natural number. -/
def BipartiteGraph.Rn (g : BipartiteGraph) : Nat := g.rightSize.toNat

/-- An input edge whose indices fall outside `[0, leftSize) × [0, rightSize)`. -/
def badEdge (ls rs : Int) (p : Int × Int) : Prop :=
  p.1 < 0 ∨ ls ≤ p.1 ∨ p.2 < 0 ∨ rs ≤ p.2

instance (ls rs : Int) (p : Int × Int) : Decidable (badEdge ls rs p) := by
  unfold badEdge; exact inferInstance

/-- The right endpoints of the in-range input edges with left endpoint `u`, in
input order, duplicates preserved — what the builder is specified to put into
`edges[u]`. -/
def keptEdges (ls rs : Int) (es : List (Int × Int)) (u : Nat) : List Int :=
  (es.filter (fun p => decide (¬ badEdge ls rs p ∧ p.1 = (u : Int)))).map (fun p => p.2)

/-- Number of matched (non-sentinel) entries of a match array. -/
def matchedCount (l : List Int) : Nat :=
  ((Finset.range l.length).filter (fun i => l.getD i (-1) ≠ -1)).card

/-- Consistency of one left slot: unmatched, or matched to an in-range right
vertex that is listed in `edges[u]` and points back. -/
def leftConsAt (g : BipartiteGraph) (ml mr : List Int) (u : Nat) : Prop :=
  ml.getD u (-1) = -1 ∨
    (0 ≤ ml.getD u (-1) ∧ ml.getD u (-1) < g.rightSize ∧ ml.getD u (-1) ∈ adj g u ∧
      mr.getD (ml.getD u (-1)).toNat (-1) = (u : Int))

/-- Consistency of one right slot: unmatched, or matched to an in-range left
vertex that points back. -/
def rightConsAt (g : BipartiteGraph) (ml mr : List Int) (v : Nat) : Prop :=
  mr.getD v (-1) = -1 ∨
    (0 ≤ mr.getD v (-1) ∧ mr.getD v (-1) < g.leftSize ∧
      ml.getD (mr.getD v (-1)).toNat (-1) = (v : Int))

/-- The engine-state invariant: array lengths as allocated by the constructor,
and the two match arrays form a consistent partial matching along graph
edges. -/
def MatchInv (g : BipartiteGraph) (s : HKState) : Prop :=
  s.matchLeft.length = g.L ∧ s.matchRight.length = g.Rn ∧ s.dist.length = g.L + 1 ∧
    (∀ u, u < g.L → leftConsAt g s.matchLeft s.matchRight u) ∧
    (∀ v, v < g.Rn → rightConsAt g s.matchLeft s.matchRight v)

/-- An arbitrary candidate matching of the graph: a set of vertex-disjoint
pairs, each along a listed in-range edge. -/
def IsMatchingOf (g : BipartiteGraph) (P : Finset (Nat × Nat)) : Prop :=
  (∀ p ∈ P, p.1 < g.L ∧ p.2 < g.Rn ∧ (p.2 : Int) ∈ adj g p.1) ∧
    (∀ p ∈ P, ∀ q ∈ P, (p.1 = q.1 ↔ p.2 = q.2))

/-- An augmenting-path flip, recorded as the `(u, v)` pairs assigned while the
successful `dfs` call chain unwinds (head = outermost call, assigned last). -/
def flipL (c : List (Nat × Int)) (ml : List Int) : List Int :=
  c.foldr (fun p acc => acc.set p.1 p.2) ml

/-- The `matchRight` side of an augmenting-path flip. -/
def flipR (c : List (Nat × Int)) (mr : List Int) : List Int :=
  c.foldr (fun p acc => acc.set p.2.toNat (p.1 : Int)) mr

/-- Well-formedness of a `dfs` success chain with respect to the matching at
call entry: consecutive links follow `matchRight`, the last right vertex is
free, and every step uses an in-range listed edge. -/
def ChainOK (g : BipartiteGraph) (mr : List Int) : List (Nat × Int) → Prop
  | [] => False
  | [(u, v)] =>
      u < g.L ∧ 0 ≤ v ∧ v < g.rightSize ∧ v ∈ adj g u ∧ mr.getD v.toNat 0 = -1
  | (u, v) :: (u', v') :: rest =>
      u < g.L ∧ 0 ≤ v ∧ v < g.rightSize ∧ v ∈ adj g u ∧ mr.getD v.toNat 0 = (u' : Int) ∧
        ChainOK g mr ((u', v') :: rest)

/-- The `dist` labels along a success chain: strictly increasing by one. -/
def DistChain (dist : List (Option Nat)) : List (Nat × Int) → Nat → Prop
  | [], _ => True
  | (u, _) :: rest, k => dist.getD u none = some k ∧ DistChain dist rest (k + 1)

/-- Every entry of `matchRight` is the sentinel or an in-range left index. -/
def MRRange (g : BipartiteGraph) (mr : List Int) : Prop :=
  ∀ i, i < mr.length →
    mr.getD i (-1) = -1 ∨ (0 ≤ mr.getD i (-1) ∧ mr.getD i (-1) < g.leftSize)

/-- Every finite `dist` entry is below `D`. -/
def DistBound (dist : List (Option Nat)) (D : Nat) : Prop :=
  ∀ z k, dist.getD z none = some k → k < D

/-- A level path from left vertex `u` (at level `k`) to the virtual sink, the
witness that `dfs u` must succeed: each step follows a listed in-range edge to
the partner of its right endpoint at level `k + 1`, and the path ends at a
free right vertex with the sink at the next level.  `Aug` is what a `bfs`
round reporting `true` guarantees for some free `u`. -/
inductive Aug (g : BipartiteGraph) (mr : List Int) (dist : List (Option Nat)) :
    Nat → Nat → Prop
  | free (u k : Nat) (v : Int) :
      dist.getD u none = some k → u < g.L → 0 ≤ v → v < g.rightSize → v ∈ adj g u →
      mr.getD v.toNat 0 = -1 → dist.getD g.L none = some (k + 1) → Aug g mr dist u k
  | step (u k : Nat) (v : Int) (w : Nat) :
      dist.getD u none = some k → u < g.L → 0 ≤ v → v < g.rightSize → v ∈ adj g u →
      mr.getD v.toNat 0 = (w : Int) → w ≠ g.L → dist.getD w none = some (k + 1) →
      Aug g mr dist w (k + 1) → Aug g mr dist u k

/-- The number of `Infinity` entries of a distance array: together with the
queue length it is the decreasing measure of the BFS queue loop. -/
def noneCount (dist : List (Option Nat)) : Nat :=
  ((Finset.range dist.length).filter (fun i => dist.getD i none = none)).card

/-- Left vertex `u` has been expanded by the BFS: every valid listed neighbour
leads to a labelled scan target (the partner of the right endpoint, or the
virtual sink). -/
def Expanded (g : BipartiteGraph) (mr : List Int) (dist : List (Option Nat)) (u : Nat) : Prop :=
  ∀ v : Int, v ∈ adj g u → 0 ≤ v → v < g.rightSize →
    dist.getD (tgtOf g.L (mr.getD v.toNat 0)) none ≠ none

/-- Every positive label has a BFS parent: a labelled left vertex one level
below with a valid listed edge whose scan target is this vertex. -/
def ParentOK (g : BipartiteGraph) (mr : List Int) (dist : List (Option Nat)) : Prop :=
  ∀ z j, dist.getD z none = some (j + 1) →
    ∃ (u' : Nat) (v : Int), u' < g.L ∧ dist.getD u' none = some j ∧ 0 ≤ v ∧
      v < g.rightSize ∧ v ∈ adj g u' ∧ tgtOf g.L (mr.getD v.toNat 0) = z

/-- Label `0` marks only free left vertices. -/
def ZeroFree (ml : List Int) (dist : List (Option Nat)) : Prop :=
  ∀ z, dist.getD z none = some 0 → z < ml.length ∧ ml.getD z (-1) = -1

/-- The side conditions carried through the DFS lemmas: array lengths as
allocated, `matchRight` entries in range, and left labels bounded by
`leftSize`. -/
def DfsInv (g : BipartiteGraph) (t : HKState) : Prop :=
  t.dist.length = g.L + 1 ∧ t.matchRight.length = g.Rn ∧ MRRange g t.matchRight ∧
    ∀ z j, z < g.L → t.dist.getD z none = some j → j ≤ g.L

/-- The first step of an `Aug` derivation for `u` at level `k` through edge
`v`: exactly what the `dfs` neighbour loop needs in order to succeed at `v`. -/
def AugTop (g : BipartiteGraph) (mr : List Int) (dist : List (Option Nat))
    (u k : Nat) (v : Int) : Prop :=
  0 ≤ v ∧ v < g.rightSize ∧ v ∈ adj g u ∧
    ((mr.getD v.toNat 0 = -1 ∧ dist.getD g.L none = some (k + 1)) ∨
     (∃ w : Nat, mr.getD v.toNat 0 = (w : Int) ∧ w ≠ g.L ∧
        dist.getD w none = some (k + 1) ∧ Aug g mr dist w (k + 1)))

/-- A one-edge bipartite graph used as concrete input in witnesses. -/
def gPair : BipartiteGraph := ⟨1, 1, [[0]]⟩

/-- A one-pair candidate matching of `gPair`, used in the C1 witness. -/
def pPair : Finset (Nat × Nat) := {(0, 0)}

/-- A 2×2 builder input used as concrete input in witnesses. -/
def esW : List (Int × Int) := [(0, 1), (5, 0), (0, 0), (1, -3), (1, 1)]

/-- A graph whose adjacency lists contain out-of-range entries (as after
post-construction mutation), used as concrete input in witnesses. -/
def gBad : BipartiteGraph := ⟨2, 2, [[0, 5], [-1, 1]]⟩

/-! # Theorems -/

/-! ## List access helpers -/

lemma getD_set_self {α : Type} (l : List α) (i : Nat) (a d : α) (h : i < l.length) :
    (l.set i a).getD i d = a := by
  simp [List.getD_eq_getElem?_getD, List.getElem?_set_self', h]

lemma getD_set_ne {α : Type} (l : List α) {i j : Nat} (a : α) (d : α) (h : i ≠ j) :
    (l.set i a).getD j d = l.getD j d := by
  simp [List.getD_eq_getElem?_getD, List.getElem?_set_ne h]

lemma getD_congr {α : Type} (l : List α) (i : Nat) (d d' : α) (h : i < l.length) :
    l.getD i d = l.getD i d' := by
  simp [List.getD_eq_getElem?_getD, List.getElem?_eq_getElem h]

lemma getD_replicate {α : Type} (n : Nat) (a d : α) (i : Nat) :
    (List.replicate n a).getD i d = if i < n then a else d := by
  by_cases h : i < n
  · rw [if_pos h, List.getD_eq_getElem?_getD, List.getElem?_replicate, if_pos h]
    rfl
  · rw [if_neg h, List.getD_eq_default]
    simpa using Nat.le_of_not_lt h

/-! ## Graph builder: adjacency construction (C6) -/

lemma keptEdges_cons (ls rs u v : Int) (rest : List (Int × Int)) (w : Nat) :
    keptEdges ls rs ((u, v) :: rest) w =
      if ¬ badEdge ls rs (u, v) ∧ u = (w : Int) then v :: keptEdges ls rs rest w
      else keptEdges ls rs rest w := by
  unfold keptEdges
  rw [List.filter_cons]
  by_cases h : ¬ badEdge ls rs (u, v) ∧ u = (w : Int)
  · have hd : decide (¬ badEdge ls rs (u, v) ∧ (u, v).1 = (w : Int)) = true := by
      simpa using h
    rw [if_pos h, hd, if_pos rfl, List.map_cons]
  · have hd : decide (¬ badEdge ls rs (u, v) ∧ (u, v).1 = (w : Int)) = false := by
      simpa using h
    rw [if_neg h, hd]
    simp

lemma addEdges_ok_adj (validate skip : Bool) (ls rs : Int) :
    ∀ (es : List (Int × Int)) (acc acc' : List (List Int)), acc.length = ls.toNat →
      addEdges validate skip ls rs es acc = .ok acc' →
      acc'.length = ls.toNat ∧
        ∀ u : Nat, acc'.getD u [] = acc.getD u [] ++ keptEdges ls rs es u := by
  intro es
  induction es with
  | nil =>
    intro acc acc' hlen h
    simp only [addEdges] at h
    cases h
    exact ⟨hlen, fun u => by simp [keptEdges]⟩
  | cons p rest ih =>
    intro acc acc' hlen h
    obtain ⟨u, v⟩ := p
    by_cases hbad : u < 0 ∨ ls ≤ u ∨ v < 0 ∨ rs ≤ v
    · rw [addEdges, if_pos hbad] at h
      have hbad' : badEdge ls rs (u, v) := hbad
      by_cases hv : validate = true ∧ ¬(skip = true)
      · rw [if_pos hv] at h; cases h
      · rw [if_neg hv] at h
        obtain ⟨hlen', hadj⟩ := ih acc acc' hlen h
        refine ⟨hlen', fun w => ?_⟩
        rw [keptEdges_cons, if_neg (by simp [hbad'])]
        exact hadj w
    · rw [addEdges, if_neg hbad] at h
      have hbad' : ¬ badEdge ls rs (u, v) := hbad
      have hu0 : 0 ≤ u := by
        by_contra hc
        exact hbad (Or.inl (by omega))
      have huls : u < ls := by
        by_contra hc
        exact hbad (Or.inr (Or.inl (by omega)))
      have hulen : u.toNat < acc.length := by
        rw [hlen]
        omega
      obtain ⟨hlen', hadj⟩ :=
        ih (acc.set u.toNat (acc.getD u.toNat [] ++ [v])) acc' (by simp [hlen]) h
      refine ⟨hlen', fun w => ?_⟩
      rw [hadj w, keptEdges_cons]
      by_cases hw : u = (w : Int)
      · have hwt : u.toNat = w := by omega
        rw [if_pos ⟨hbad', hw⟩, ← hwt, getD_set_self _ _ _ _ hulen, List.append_assoc]
        rfl
      · have hwt : u.toNat ≠ w := by omega
        rw [if_neg (by tauto), getD_set_ne _ _ _ hwt]

lemma keptEdges_range (ls rs : Int) (es : List (Int × Int)) (u : Nat) :
    ∀ v ∈ keptEdges ls rs es u, 0 ≤ v ∧ v < rs := by
  intro v hv
  simp only [keptEdges, List.mem_map, List.mem_filter] at hv
  obtain ⟨p, ⟨_, hp⟩, rfl⟩ := hv
  have := of_decide_eq_true hp
  unfold badEdge at this
  omega

/-- C6: for every successful build, `edges[u]` holds exactly the right ends of
the in-range input edges at `u`, in input order with duplicates kept, and all
retained entries lie in `[0, rightSize)`. -/
theorem createBipartiteGraph_adjacency (ls rs : Int) (es : List (Int × Int))
    (o : BipartiteGraphOptions) (g : BipartiteGraph)
    (h : createBipartiteGraph ls rs es o = .ok g) :
    g.leftSize = ls ∧ g.rightSize = rs ∧ g.edges.length = ls.toNat ∧
      (∀ u : Nat, adj g u = keptEdges ls rs es u) ∧
      (∀ u : Nat, ∀ v ∈ adj g u, 0 ≤ v ∧ v < rs) := by
  simp only [createBipartiteGraph] at h
  split at h
  · cases h
  · split at h
    · cases h
    · rcases heq : addEdges (o.validateInput.getD true) (o.skipInvalidEdges.getD true)
          ls rs es (List.replicate ls.toNat []) with e | acc
      · rw [heq] at h; cases h
      · rw [heq] at h
        cases h
        obtain ⟨hlen, hadj⟩ := addEdges_ok_adj _ _ ls rs es _ _ (by simp) heq
        have hrep : ∀ u : Nat, (List.replicate ls.toNat ([] : List Int)).getD u [] = [] := by
          intro u; rw [getD_replicate]; split <;> rfl
        have hadj2 : ∀ u : Nat, adj ⟨ls, rs, acc⟩ u = keptEdges ls rs es u := by
          intro u
          show acc.getD u [] = _
          rw [hadj u, hrep u, List.nil_append]
        refine ⟨rfl, rfl, hlen, hadj2, fun u v hv => ?_⟩
        rw [hadj2 u] at hv
        exact keptEdges_range ls rs es u v hv

/-! ## Graph builder: error taxonomy (C5) -/

lemma invalidEdgeMessage_head (u v ls rs : Int) :
    (invalidEdgeMessage u v ls rs).data.head? = some 'I' := by
  unfold invalidEdgeMessage
  simp only [String.data_append, List.append_assoc]
  rfl

lemma invalidLeftSizeMessage_head (x : Int) :
    (invalidLeftSizeMessage x).data.head? = some 'l' := by
  unfold invalidLeftSizeMessage
  simp only [String.data_append, List.append_assoc]
  rfl

lemma invalidRightSizeMessage_head (x : Int) :
    (invalidRightSizeMessage x).data.head? = some 'r' := by
  unfold invalidRightSizeMessage
  simp only [String.data_append, List.append_assoc]
  rfl

lemma invalidEdgeMessage_ne_left (u v ls rs x : Int) :
    invalidEdgeMessage u v ls rs ≠ invalidLeftSizeMessage x := by
  intro h
  have h2 : (invalidEdgeMessage u v ls rs).data.head? =
      (invalidLeftSizeMessage x).data.head? := by rw [h]
  rw [invalidEdgeMessage_head, invalidLeftSizeMessage_head] at h2
  simp at h2

lemma invalidEdgeMessage_ne_right (u v ls rs x : Int) :
    invalidEdgeMessage u v ls rs ≠ invalidRightSizeMessage x := by
  intro h
  have h2 : (invalidEdgeMessage u v ls rs).data.head? =
      (invalidRightSizeMessage x).data.head? := by rw [h]
  rw [invalidEdgeMessage_head, invalidRightSizeMessage_head] at h2
  simp at h2

lemma addEdges_error_iff (validate skip : Bool) (ls rs : Int) :
    ∀ (es : List (Int × Int)) (acc : List (List Int)),
      (∃ e, addEdges validate skip ls rs es acc = .error e) ↔
        (validate = true ∧ skip = false ∧ ∃ p ∈ es, badEdge ls rs p) := by
  intro es
  induction es with
  | nil =>
    intro acc
    simp [addEdges]
  | cons p rest ih =>
    intro acc
    obtain ⟨u, v⟩ := p
    by_cases hbad : u < 0 ∨ ls ≤ u ∨ v < 0 ∨ rs ≤ v
    · rw [addEdges, if_pos hbad]
      by_cases hv : validate = true ∧ ¬(skip = true)
      · rw [if_pos hv]
        constructor
        · intro _
          exact ⟨hv.1, by simpa using hv.2, ⟨(u, v), by simp, hbad⟩⟩
        · intro _
          exact ⟨_, rfl⟩
      · rw [if_neg hv]
        rw [ih acc]
        constructor
        · rintro ⟨h1, h2, p, hp, hb⟩
          exact ⟨h1, h2, p, by simp [hp], hb⟩
        · rintro ⟨h1, h2, p, hp, hb⟩
          rcases List.mem_cons.mp hp with rfl | hp'
          · exact absurd ⟨h1, by simp [h2]⟩ hv
          · exact ⟨h1, h2, p, hp', hb⟩
    · rw [addEdges, if_neg hbad]
      rw [ih _]
      constructor
      · rintro ⟨h1, h2, p, hp, hb⟩
        exact ⟨h1, h2, p, by simp [hp], hb⟩
      · rintro ⟨h1, h2, p, hp, hb⟩
        rcases List.mem_cons.mp hp with rfl | hp'
        · exact absurd hb hbad
        · exact ⟨h1, h2, p, hp', hb⟩

lemma addEdges_error_val (validate skip : Bool) (ls rs : Int) :
    ∀ (es : List (Int × Int)) (acc : List (List Int)) (e : BipartiteGraphError),
      addEdges validate skip ls rs es acc = .error e →
      ∃ p ∈ es, badEdge ls rs p ∧ e = ⟨invalidEdgeMessage p.1 p.2 ls rs⟩ := by
  intro es
  induction es with
  | nil =>
    intro acc e h
    simp [addEdges] at h
  | cons p rest ih =>
    intro acc e h
    obtain ⟨u, v⟩ := p
    by_cases hbad : u < 0 ∨ ls ≤ u ∨ v < 0 ∨ rs ≤ v
    · rw [addEdges, if_pos hbad] at h
      by_cases hv : validate = true ∧ ¬(skip = true)
      · rw [if_pos hv] at h
        cases h
        exact ⟨(u, v), by simp, hbad, rfl⟩
      · rw [if_neg hv] at h
        obtain ⟨p, hp, hb, he⟩ := ih acc e h
        exact ⟨p, by simp [hp], hb, he⟩
    · rw [addEdges, if_neg hbad] at h
      obtain ⟨p, hp, hb, he⟩ := ih _ e h
      exact ⟨p, by simp [hp], hb, he⟩

lemma addEdges_ok_total (validate skip : Bool) (ls rs : Int) (es : List (Int × Int))
    (acc : List (List Int)) (h : ¬(validate = true ∧ skip = false ∧ ∃ p ∈ es, badEdge ls rs p)) :
    ∃ acc', addEdges validate skip ls rs es acc = .ok acc' := by
  rcases heq : addEdges validate skip ls rs es acc with e | acc'
  · exact absurd ((addEdges_error_iff validate skip ls rs es acc).mp ⟨e, heq⟩) h
  · exact ⟨acc', rfl⟩

/-- C5: the builder fails with the partition-size error exactly when validation
is on and a size is negative (before touching any edge, hence those two exact
messages); it fails with the edge error exactly when, additionally not in the
former case, validation is on, skipping is off and some input edge is out of
range (the message naming that edge); in every other case it returns a
graph. -/
theorem createBipartiteGraph_error_spec (ls rs : Int) (es : List (Int × Int))
    (o : BipartiteGraphOptions) :
    ((createBipartiteGraph ls rs es o = .error ⟨invalidLeftSizeMessage ls⟩ ∨
      createBipartiteGraph ls rs es o = .error ⟨invalidRightSizeMessage rs⟩) ↔
      (o.validateInput.getD true = true ∧ (ls < 0 ∨ rs < 0))) ∧
    ((∃ u v : Int, (u, v) ∈ es ∧ badEdge ls rs (u, v) ∧
        createBipartiteGraph ls rs es o = .error ⟨invalidEdgeMessage u v ls rs⟩) ↔
      (¬(o.validateInput.getD true = true ∧ (ls < 0 ∨ rs < 0)) ∧
        o.validateInput.getD true = true ∧ o.skipInvalidEdges.getD true = false ∧
        ∃ p ∈ es, badEdge ls rs p)) ∧
    ((∃ g, createBipartiteGraph ls rs es o = .ok g) ↔
      (¬(o.validateInput.getD true = true ∧ (ls < 0 ∨ rs < 0)) ∧
        ¬(o.validateInput.getD true = true ∧ o.skipInvalidEdges.getD true = false ∧
          ∃ p ∈ es, badEdge ls rs p))) := by
  by_cases h1 : o.validateInput.getD true = true ∧ ls < 0
  · have hres : createBipartiteGraph ls rs es o = .error ⟨invalidLeftSizeMessage ls⟩ := by
      simp only [createBipartiteGraph]
      rw [if_pos h1]
    refine ⟨?_, ?_, ?_⟩
    · simp [hres, h1.1, h1.2]
    · constructor
      · rintro ⟨u, v, _, _, he⟩
        rw [hres] at he
        exact absurd (congrArg BipartiteGraphError.message (Except.error.inj he)).symm
          (invalidEdgeMessage_ne_left u v ls rs ls)
      · rintro ⟨hnp, _⟩
        exact absurd ⟨h1.1, Or.inl h1.2⟩ hnp
    · constructor
      · rintro ⟨g, hg⟩
        rw [hres] at hg
        cases hg
      · rintro ⟨hnp, _⟩
        exact absurd ⟨h1.1, Or.inl h1.2⟩ hnp
  · by_cases h2 : o.validateInput.getD true = true ∧ rs < 0
    · have hres : createBipartiteGraph ls rs es o = .error ⟨invalidRightSizeMessage rs⟩ := by
        simp only [createBipartiteGraph]
        rw [if_neg h1, if_pos h2]
      refine ⟨?_, ?_, ?_⟩
      · simp [hres, h2.1, h2.2]
      · constructor
        · rintro ⟨u, v, _, _, he⟩
          rw [hres] at he
          exact absurd (congrArg BipartiteGraphError.message (Except.error.inj he)).symm
            (invalidEdgeMessage_ne_right u v ls rs rs)
        · rintro ⟨hnp, _⟩
          exact absurd ⟨h2.1, Or.inr h2.2⟩ hnp
      · constructor
        · rintro ⟨g, hg⟩
          rw [hres] at hg
          cases hg
        · rintro ⟨hnp, _⟩
          exact absurd ⟨h2.1, Or.inr h2.2⟩ hnp
    · have hnp : ¬(o.validateInput.getD true = true ∧ (ls < 0 ∨ rs < 0)) := by
        rintro ⟨hv, hor⟩
        rcases hor with hl | hr
        · exact h1 ⟨hv, hl⟩
        · exact h2 ⟨hv, hr⟩
      have hmatch : createBipartiteGraph ls rs es o =
          (match addEdges (o.validateInput.getD true) (o.skipInvalidEdges.getD true)
              ls rs es (List.replicate ls.toNat []) with
            | .ok acc => .ok ⟨ls, rs, acc⟩
            | .error e => .error e) := by
        simp only [createBipartiteGraph]
        rw [if_neg h1, if_neg h2]
      by_cases hE : o.validateInput.getD true = true ∧ o.skipInvalidEdges.getD true = false ∧
          ∃ p ∈ es, badEdge ls rs p
      · obtain ⟨e, he⟩ := (addEdges_error_iff (o.validateInput.getD true)
          (o.skipInvalidEdges.getD true) ls rs es (List.replicate ls.toNat [])).mpr hE
        have hres : createBipartiteGraph ls rs es o = .error e := by
          rw [hmatch, he]
        obtain ⟨p, hp, hb, hev⟩ := addEdges_error_val _ _ ls rs es _ e he
        refine ⟨?_, ?_, ?_⟩
        · constructor
          · rintro (hx | hx)
            · rw [hres, hev] at hx
              exact absurd (congrArg BipartiteGraphError.message (Except.error.inj hx))
                (invalidEdgeMessage_ne_left p.1 p.2 ls rs ls)
            · rw [hres, hev] at hx
              exact absurd (congrArg BipartiteGraphError.message (Except.error.inj hx))
                (invalidEdgeMessage_ne_right p.1 p.2 ls rs rs)
          · intro hx
            exact absurd hx hnp
        · constructor
          · intro _
            exact ⟨hnp, hE⟩
          · intro _
            exact ⟨p.1, p.2, hp, hb, by rw [hres, hev]⟩
        · constructor
          · rintro ⟨g, hg⟩
            rw [hres] at hg
            cases hg
          · rintro ⟨_, hne⟩
            exact absurd hE hne
      · obtain ⟨acc, hok⟩ := addEdges_ok_total (o.validateInput.getD true)
          (o.skipInvalidEdges.getD true) ls rs es (List.replicate ls.toNat []) hE
        have hres : createBipartiteGraph ls rs es o = .ok ⟨ls, rs, acc⟩ := by
          rw [hmatch, hok]
        refine ⟨?_, ?_, ?_⟩
        · constructor
          · rintro (hx | hx) <;> (rw [hres] at hx; cases hx)
          · intro hx
            exact absurd hx hnp
        · constructor
          · rintro ⟨u, v, _, _, he⟩
            rw [hres] at he
            cases he
          · rintro ⟨_, hx⟩
            exact absurd hx hE
        · exact ⟨fun _ => ⟨hnp, hE⟩, fun _ => ⟨_, hres⟩⟩

/-- Witness for C6 at a concrete build: two in-range edges at `u = 0`, one at
`u = 1`, two dropped. -/
theorem createBipartiteGraph_adjacency_witness :
    createBipartiteGraph 2 2 esW {} = .ok ⟨2, 2, [[1, 0], [1]]⟩ ∧
    adj ⟨2, 2, [[1, 0], [1]]⟩ 0 = keptEdges 2 2 esW 0 ∧
    (⟨2, 2, [[1, 0], [1]]⟩ : BipartiteGraph).edges.length = (2 : Int).toNat := by
  have h : createBipartiteGraph 2 2 esW {} = .ok ⟨2, 2, [[1, 0], [1]]⟩ := by rfl
  exact ⟨h, (createBipartiteGraph_adjacency 2 2 esW {} _ h).2.2.2.1 0,
    (createBipartiteGraph_adjacency 2 2 esW {} _ h).2.2.1⟩

/-! ## Perfect matching delegation (C4) -/

/-- C4: `findPerfectMatching` delegates to `findMaximumMatching` and returns
its matching exactly when the size equals both partition sizes, else `null`. -/
theorem findPerfectMatching_spec (g : BipartiteGraph) :
    findPerfectMatching g =
      if ((findMaximumMatching g).size : Int) = g.leftSize ∧
          ((findMaximumMatching g).size : Int) = g.rightSize
      then some (findMaximumMatching g) else none := rfl

/-! ## Determinism (C10) -/

/-- C10: the engine is a deterministic function of the graph: engines built
over equal graphs return componentwise identical first matchings. -/
theorem findMaximumMatching_deterministic (g₁ g₂ : BipartiteGraph) (h : g₁ = g₂) :
    (findMaximumMatching g₁).matchLeft = (findMaximumMatching g₂).matchLeft ∧
    (findMaximumMatching g₁).matchRight = (findMaximumMatching g₂).matchRight ∧
    (findMaximumMatching g₁).size = (findMaximumMatching g₂).size := by
  subst h
  exact ⟨rfl, rfl, rfl⟩

/-- Witness for C10 at the one-edge graph. -/
theorem findMaximumMatching_deterministic_witness :
    gPair = gPair ∧
    (findMaximumMatching gPair).matchLeft = (findMaximumMatching gPair).matchLeft ∧
    (findMaximumMatching gPair).matchRight = (findMaximumMatching gPair).matchRight ∧
    (findMaximumMatching gPair).size = (findMaximumMatching gPair).size :=
  ⟨rfl, findMaximumMatching_deterministic gPair gPair rfl⟩

/-! ## Repeated calls on one engine instance (C2, C3) -/

/-- C2 (bug evidence): on the 1×1 one-edge graph, the first call returns a
matching of size 1; a second call on the engine state left behind returns
`size = 0` although `matchLeft`/`matchRight` still hold the matched pair —
the `matchingSize` counter restarts at `0` on every call. -/
theorem findMaximumMatching_second_call_size :
    (findMaximumMatchingFrom gPair (initState gPair)).1.size = 1 ∧
    (findMaximumMatchingFrom gPair
        (findMaximumMatchingFrom gPair (initState gPair)).2).1.size = 0 ∧
    (findMaximumMatchingFrom gPair
        (findMaximumMatchingFrom gPair (initState gPair)).2).1.matchLeft = [0] ∧
    (findMaximumMatchingFrom gPair
        (findMaximumMatchingFrom gPair (initState gPair)).2).1.matchRight = [0] :=
  ⟨rfl, rfl, rfl, rfl⟩

/-- C3 counterexample: the matching returned by the second
`findMaximumMatching` call on the 1×1 engine has `size = 0` but one
non-sentinel `matchLeft` entry, so it is not well-formed as claimed. -/
theorem secondCall_matching_malformed :
    (findMaximumMatchingFrom gPair
        (findMaximumMatchingFrom gPair (initState gPair)).2).1.size ≠
      matchedCount ((findMaximumMatchingFrom gPair
        (findMaximumMatchingFrom gPair (initState gPair)).2).1.matchLeft) := by
  decide

/-! ## DFS structural lemmas -/

lemma oEq_some_iff (x : Option Nat) (k : Nat) : oEq x (some k) = true ↔ x = some k := by
  cases x with
  | none => simp [oEq]
  | some a => simp [oEq]

lemma oEq_none_iff (x : Option Nat) : oEq x none = true ↔ x = none := by
  cases x with
  | none => simp [oEq]
  | some a => simp [oEq]

lemma dfsGo_shape (g : BipartiteGraph) (rec : Nat → HKState → Bool × HKState) (u : Nat)
    (hrec : ∀ w t, ((rec w t).2).matchLeft.length = t.matchLeft.length ∧
      ((rec w t).2).matchRight.length = t.matchRight.length ∧
      ((rec w t).2).dist.length = t.dist.length) :
    ∀ (l : List Int) (s : HKState),
      ((dfsGo g rec u l s).2).matchLeft.length = s.matchLeft.length ∧
      ((dfsGo g rec u l s).2).matchRight.length = s.matchRight.length ∧
      ((dfsGo g rec u l s).2).dist.length = s.dist.length := by
  intro l
  induction l with
  | nil =>
    intro s
    simp [dfsGo]
  | cons v vs ih =>
    intro s
    simp only [dfsGo]
    split
    · exact ih s
    · split
      · rcases hr : rec (nextOf g.L (s.matchRight.getD v.toNat 0)).toNat s with ⟨b, s₂⟩
        have hs₂ := hrec (nextOf g.L (s.matchRight.getD v.toNat 0)).toNat s
        rw [hr] at hs₂
        cases b
        · simp only [hr]
          obtain ⟨h1, h2, h3⟩ := ih s₂
          exact ⟨h1.trans hs₂.1, h2.trans hs₂.2.1, h3.trans hs₂.2.2⟩
        · simp only [hr]
          simpa using hs₂
      · exact ih s

lemma dfs_shape (g : BipartiteGraph) :
    ∀ (f u : Nat) (s : HKState),
      ((dfsF g f u s).2).matchLeft.length = s.matchLeft.length ∧
      ((dfsF g f u s).2).matchRight.length = s.matchRight.length ∧
      ((dfsF g f u s).2).dist.length = s.dist.length := by
  intro f
  induction f with
  | zero => intro u s; simp [dfsF]
  | succ f ih =>
    intro u s
    simp only [dfsF]
    split
    · simp
    · exact dfsGo_shape g (dfsF g f) u (fun w t => ih w t) (adj g u) s

lemma dfsGo_dist_mono (g : BipartiteGraph) (rec : Nat → HKState → Bool × HKState) (u : Nat)
    (hrec : ∀ w t z, ((rec w t).2).dist.getD z none = t.dist.getD z none ∨
      ((rec w t).2).dist.getD z none = none) :
    ∀ (l : List Int) (s : HKState) (z : Nat),
      ((dfsGo g rec u l s).2).dist.getD z none = s.dist.getD z none ∨
      ((dfsGo g rec u l s).2).dist.getD z none = none := by
  intro l
  induction l with
  | nil =>
    intro s z
    simp only [dfsGo]
    by_cases hz : u = z
    · subst hz
      by_cases hlt : u < s.dist.length
      · right
        simpa using getD_set_self s.dist u none none hlt
      · left
        rw [List.set_eq_of_length_le (Nat.le_of_not_lt hlt)]
    · left
      exact getD_set_ne s.dist none none hz
  | cons v vs ih =>
    intro s z
    simp only [dfsGo]
    split
    · exact ih s z
    · split
      · rcases hr : rec (nextOf g.L (s.matchRight.getD v.toNat 0)).toNat s with ⟨b, s₂⟩
        have hs₂ := hrec (nextOf g.L (s.matchRight.getD v.toNat 0)).toNat s z
        rw [hr] at hs₂
        cases b
        · simp only [hr]
          rcases ih s₂ z with h | h
          · rw [h]
            exact hs₂
          · right; exact h
        · simp only [hr]
          exact hs₂
      · exact ih s z

lemma dfs_dist_mono (g : BipartiteGraph) :
    ∀ (f u : Nat) (s : HKState) (z : Nat),
      ((dfsF g f u s).2).dist.getD z none = s.dist.getD z none ∨
      ((dfsF g f u s).2).dist.getD z none = none := by
  intro f
  induction f with
  | zero => intro u s z; left; rfl
  | succ f ih =>
    intro u s z
    simp only [dfsF]
    split
    · left; rfl
    · exact dfsGo_dist_mono g (dfsF g f) u (fun w t => ih w t) (adj g u) s z

lemma dfsGo_false_matching (g : BipartiteGraph) (rec : Nat → HKState → Bool × HKState) (u : Nat)
    (hrec : ∀ w t s₂, rec w t = (false, s₂) →
      s₂.matchLeft = t.matchLeft ∧ s₂.matchRight = t.matchRight) :
    ∀ (l : List Int) (s s₂ : HKState), dfsGo g rec u l s = (false, s₂) →
      s₂.matchLeft = s.matchLeft ∧ s₂.matchRight = s.matchRight := by
  intro l
  induction l with
  | nil =>
    intro s s₂ h
    simp only [dfsGo] at h
    cases h
    exact ⟨rfl, rfl⟩
  | cons v vs ih =>
    intro s s₂ h
    simp only [dfsGo] at h
    split at h
    · exact ih s s₂ h
    · split at h
      · rcases hr : rec (nextOf g.L (s.matchRight.getD v.toNat 0)).toNat s with ⟨b, s₁⟩
        rw [hr] at h
        cases b
        · obtain ⟨h1, h2⟩ := ih s₁ s₂ h
          obtain ⟨h3, h4⟩ := hrec _ s s₁ hr
          exact ⟨h1.trans h3, h2.trans h4⟩
        · cases h
      · exact ih s s₂ h

lemma dfs_false_matching (g : BipartiteGraph) :
    ∀ (f u : Nat) (s s₂ : HKState), dfsF g f u s = (false, s₂) →
      s₂.matchLeft = s.matchLeft ∧ s₂.matchRight = s.matchRight := by
  intro f
  induction f with
  | zero =>
    intro u s s₂ h
    simp only [dfsF] at h
    cases h
    exact ⟨rfl, rfl⟩
  | succ f ih =>
    intro u s s₂ h
    simp only [dfsF] at h
    split at h
    · cases h
    · exact dfsGo_false_matching g (dfsF g f) u (fun w t s' => ih w t s') (adj g u) s s₂ h

lemma distCheck_true (dist : List (Option Nat)) (next : Int) (du : Option Nat)
    (h : distCheck dist next du = true) :
    0 ≤ next ∧ next.toNat < dist.length ∧ dist.getD next.toNat none = oAdd1 du := by
  unfold distCheck at h
  split at h
  · rename_i hr
    refine ⟨hr.1, hr.2, ?_⟩
    cases du with
    | none => exact (oEq_none_iff _).mp h
    | some k => exact (oEq_some_iff _ _).mp h
  · cases h

lemma dfsGo_marks (g : BipartiteGraph) (rec : Nat → HKState → Bool × HKState) (u : Nat)
    (hrecM : ∀ w t z, ((rec w t).2).dist.getD z none ≠ t.dist.getD z none →
      ∃ k j, t.dist.getD w none = some k ∧ t.dist.getD z none = some j ∧ k ≤ j ∧
        ((rec w t).2).dist.getD z none = none)
    (hrecMono : ∀ w t z, ((rec w t).2).dist.getD z none = t.dist.getD z none ∨
      ((rec w t).2).dist.getD z none = none) :
    ∀ (l : List Int) (s : HKState) (z : Nat),
      ((dfsGo g rec u l s).2).dist.getD z none ≠ s.dist.getD z none →
      ∃ k j, s.dist.getD u none = some k ∧ s.dist.getD z none = some j ∧ k ≤ j ∧
        ((dfsGo g rec u l s).2).dist.getD z none = none := by
  intro l
  induction l with
  | nil =>
    intro s z hch
    simp only [dfsGo] at hch ⊢
    by_cases hz : u = z
    · subst hz
      by_cases hlt : u < s.dist.length
      · have hset : (s.dist.set u none).getD u none = none := by
          simpa using getD_set_self s.dist u none none hlt
        rw [hset] at hch ⊢
        rcases hx : s.dist.getD u none with _ | k
        · exact absurd hx.symm hch
        · exact ⟨k, k, rfl, rfl, le_refl k, rfl⟩
      · rw [List.set_eq_of_length_le (Nat.le_of_not_lt hlt)] at hch
        exact absurd rfl hch
    · rw [getD_set_ne s.dist none none hz] at hch
      exact absurd rfl hch
  | cons v vs ih =>
    intro s z hch
    by_cases hvr : v < 0 ∨ g.rightSize ≤ v
    · simp only [dfsGo, if_pos hvr] at hch ⊢
      exact ih s z hch
    · by_cases hdc : distCheck s.dist (nextOf g.L (s.matchRight.getD v.toNat 0))
          (s.dist.getD u none) = true
      · obtain ⟨hnn, hlt, hval⟩ := distCheck_true _ _ _ hdc
        rcases hr : rec (nextOf g.L (s.matchRight.getD v.toNat 0)).toNat s with ⟨b, s₁⟩
        simp only [dfsGo, if_neg hvr, if_pos hdc, hr] at hch ⊢
        cases b
        · simp only at hch ⊢
          by_cases hmid :
              ((dfsGo g rec u vs s₁).2).dist.getD z none = s₁.dist.getD z none
          · have hch₁ : s₁.dist.getD z none ≠ s.dist.getD z none := by
              rw [← hmid]; exact hch
            have hM := hrecM (nextOf g.L (s.matchRight.getD v.toNat 0)).toNat s z
            rw [hr] at hM
            obtain ⟨k', j, hk', hj, hkj, hnone⟩ := hM hch₁
            rcases hdu : s.dist.getD u none with _ | k
            · rw [hdu] at hval
              rw [hval] at hk'
              cases hk'
            · rw [hdu] at hval
              rw [hval] at hk'
              have hk'' : k' = k + 1 := by
                simp [oAdd1] at hk'
                omega
              exact ⟨k, j, rfl, hj, by omega, by rw [hmid, hnone]⟩
          · obtain ⟨k₁, j₁, hk₁, hj₁, hkj₁, hnone₁⟩ := ih s₁ z hmid
            have hmono := hrecMono (nextOf g.L (s.matchRight.getD v.toNat 0)).toNat s
            have hmu : s₁.dist.getD u none = s.dist.getD u none := by
              have hmo := hmono u
              rw [hr] at hmo
              rcases hmo with h1 | h1
              · exact h1
              · rw [h1]
                by_contra hne
                have hM := hrecM (nextOf g.L (s.matchRight.getD v.toNat 0)).toNat s u
                rw [hr] at hM
                obtain ⟨k', j, hk', hj, hkj, _⟩ := hM (by rw [h1]; exact hne)
                rcases hdu : s.dist.getD u none with _ | k
                · rw [hdu] at hval hj
                  rw [hval] at hk'
                  cases hk'
                · rw [hdu] at hval hj
                  rw [hval] at hk'
                  simp [oAdd1] at hk'
                  cases hj
                  omega
            have hmz : s.dist.getD z none = some j₁ := by
              have hmo := hmono z
              rw [hr] at hmo
              rcases hmo with h1 | h1
              · rw [← h1]; exact hj₁
              · rw [h1] at hj₁; cases hj₁
            exact ⟨k₁, j₁, by rw [← hmu]; exact hk₁, hmz, hkj₁, hnone₁⟩
        · simp only at hch ⊢
          have hM := hrecM (nextOf g.L (s.matchRight.getD v.toNat 0)).toNat s z
          rw [hr] at hM
          obtain ⟨k', j, hk', hj, hkj, hnone⟩ := hM hch
          rcases hdu : s.dist.getD u none with _ | k
          · rw [hdu] at hval
            rw [hval] at hk'
            cases hk'
          · rw [hdu] at hval
            rw [hval] at hk'
            have hk'' : k' = k + 1 := by
              simp [oAdd1] at hk'
              omega
            exact ⟨k, j, rfl, hj, by omega, hnone⟩
      · simp only [dfsGo, if_neg hvr, if_neg hdc] at hch ⊢
        exact ih s z hch

lemma dfs_marks (g : BipartiteGraph) :
    ∀ (f u : Nat) (s : HKState) (z : Nat),
      ((dfsF g f u s).2).dist.getD z none ≠ s.dist.getD z none →
      ∃ k j, s.dist.getD u none = some k ∧ s.dist.getD z none = some j ∧ k ≤ j ∧
        ((dfsF g f u s).2).dist.getD z none = none := by
  intro f
  induction f with
  | zero => intro u s z hch; exact absurd rfl hch
  | succ f ih =>
    intro u s z hch
    by_cases hL : u = g.L
    · simp only [dfsF, if_pos hL] at hch ⊢
      exact absurd rfl hch
    · simp only [dfsF, if_neg hL] at hch ⊢
      exact dfsGo_marks g (dfsF g f) u (fun w t z' => ih w t z')
        (fun w t z' => dfs_dist_mono g f w t z') (adj g u) s z hch

lemma distChain_mono (d d' : List (Option Nat))
    (h : ∀ z, d'.getD z none = d.getD z none ∨ d'.getD z none = none) :
    ∀ (c : List (Nat × Int)) (k : Nat), DistChain d' c k → DistChain d c k := by
  intro c
  induction c with
  | nil => intro k _; trivial
  | cons p rest ihc =>
    intro k hk
    obtain ⟨u, v⟩ := p
    obtain ⟨h1, h2⟩ := hk
    refine ⟨?_, ihc _ h2⟩
    rcases h u with h3 | h3
    · rw [← h3]; exact h1
    · rw [h3] at h1; cases h1

lemma dfs_true_chain (g : BipartiteGraph) :
    ∀ (f u : Nat) (s s' : HKState), dfsF g f u s = (true, s') →
      s.matchRight.length = g.Rn → MRRange g s.matchRight → u < g.L →
      ∃ c : List (Nat × Int),
        ChainOK g s.matchRight c ∧ (∃ v0 : Int, c.head? = some (u, v0)) ∧
        (∀ k, s.dist.getD u none = some k → DistChain s.dist c k) ∧
        s'.matchLeft = flipL c s.matchLeft ∧ s'.matchRight = flipR c s.matchRight := by
  intro f
  induction f with
  | zero =>
    intro u s s' h _ _ _
    simp only [dfsF] at h
    exact absurd (congrArg Prod.fst h) (by simp)
  | succ f ih =>
    intro u s s' h hlen hmr hu
    have hne : ¬ u = g.L := by omega
    simp only [dfsF, if_neg hne] at h
    have main : ∀ (l : List Int), (∀ v ∈ l, v ∈ adj g u) →
        ∀ (t t' : HKState), t.matchRight.length = g.Rn → MRRange g t.matchRight →
        dfsGo g (dfsF g f) u l t = (true, t') →
        ∃ c, ChainOK g t.matchRight c ∧ (∃ v0 : Int, c.head? = some (u, v0)) ∧
          (∀ k, t.dist.getD u none = some k → DistChain t.dist c k) ∧
          t'.matchLeft = flipL c t.matchLeft ∧ t'.matchRight = flipR c t.matchRight := by
      intro l
      induction l with
      | nil =>
        intro _ t t' _ _ hgo
        simp only [dfsGo] at hgo
        exact absurd (congrArg Prod.fst hgo) (by simp)
      | cons v vs ihl =>
        intro hsub t t' hlen' hmr' hgo
        by_cases hvr : v < 0 ∨ g.rightSize ≤ v
        · simp only [dfsGo, if_pos hvr] at hgo
          exact ihl (fun x hx => hsub x (List.mem_cons_of_mem _ hx)) t t' hlen' hmr' hgo
        · have hv0 : 0 ≤ v := le_of_not_lt (fun hc => hvr (Or.inl hc))
          have hvR : v < g.rightSize := lt_of_not_le (fun hc => hvr (Or.inr hc))
          by_cases hdc : distCheck t.dist (nextOf g.L (t.matchRight.getD v.toNat 0))
              (t.dist.getD u none) = true
          · rcases hr : dfsF g f (nextOf g.L (t.matchRight.getD v.toNat 0)).toNat t with ⟨b, s₂⟩
            simp only [dfsGo, if_neg hvr, if_pos hdc, hr] at hgo
            obtain ⟨hdcn, hdclt, hdcval⟩ := distCheck_true _ _ _ hdc
            cases b
            · obtain ⟨hmlEq, hmrEq⟩ := dfs_false_matching g f _ t s₂ hr
              have hmono : ∀ z, s₂.dist.getD z none = t.dist.getD z none ∨
                  s₂.dist.getD z none = none := by
                intro z
                have hmo := dfs_dist_mono g f (nextOf g.L (t.matchRight.getD v.toNat 0)).toNat t z
                rw [hr] at hmo
                exact hmo
              have hdu : s₂.dist.getD u none = t.dist.getD u none := by
                rcases hmono u with h1 | h1
                · exact h1
                · rw [h1]
                  by_contra hneq
                  have hM := dfs_marks g f (nextOf g.L (t.matchRight.getD v.toNat 0)).toNat t u
                  rw [hr] at hM
                  obtain ⟨k', j, hk', hj, hkj, _⟩ := hM (by rw [h1]; exact hneq)
                  rcases hdu2 : t.dist.getD u none with _ | k
                  · rw [hdu2] at hdcval
                    rw [hdcval] at hk'
                    cases hk'
                  · rw [hdu2] at hdcval hj
                    rw [hdcval] at hk'
                    simp [oAdd1] at hk'
                    cases hj
                    omega
              obtain ⟨c, hc1, hc2, hc3, hc4, hc5⟩ :=
                ihl (fun x hx => hsub x (List.mem_cons_of_mem _ hx)) s₂ t'
                  (by rw [hmrEq]; exact hlen') (by rw [hmrEq]; exact hmr') hgo
              refine ⟨c, by rw [hmrEq] at hc1; exact hc1, hc2, ?_,
                by rw [hmlEq] at hc4; exact hc4, by rw [hmrEq] at hc5; exact hc5⟩
              intro k hk
              exact distChain_mono t.dist s₂.dist hmono c k (hc3 k (by rw [hdu]; exact hk))
            · cases hgo
              by_cases hm1 : t.matchRight.getD v.toNat 0 = -1
              · have hnx : (nextOf g.L (t.matchRight.getD v.toNat 0)).toNat = g.L := by
                  unfold nextOf
                  rw [if_pos hm1]
                  exact Int.toNat_natCast g.L
                rw [hnx] at hr
                have hs₂ : s₂ = t := by
                  cases f with
                  | zero => simp [dfsF] at hr
                  | succ f' =>
                    simp only [dfsF, if_pos rfl] at hr
                    cases hr
                    rfl
                subst hs₂
                refine ⟨[(u, v)], ?_, ⟨v, rfl⟩, ?_, rfl, rfl⟩
                · exact ⟨hu, hv0, hvR, hsub v (List.mem_cons_self _ _), hm1⟩
                · intro k hk
                  exact ⟨hk, trivial⟩
              · have hvmem : v.toNat < s₂.matchRight.length → True := fun _ => trivial
                have hvmem' : v.toNat < t.matchRight.length := by
                  rw [hlen']
                  unfold BipartiteGraph.Rn
                  omega
                have hdef : t.matchRight.getD v.toNat (-1) = t.matchRight.getD v.toNat 0 :=
                  getD_congr _ _ _ _ hvmem'
                rcases hmr' v.toNat hvmem' with hx | ⟨hge, hlt2⟩
                · rw [hdef] at hx
                  exact absurd hx hm1
                · rw [hdef] at hge hlt2
                  have hnx : (nextOf g.L (t.matchRight.getD v.toNat 0)).toNat =
                      (t.matchRight.getD v.toNat 0).toNat := by
                    unfold nextOf
                    rw [if_neg hm1]
                  have hwlt : (t.matchRight.getD v.toNat 0).toNat < g.L := by
                    unfold BipartiteGraph.L
                    omega
                  rw [hnx] at hr
                  obtain ⟨c', hc1, ⟨v1, hhead⟩, hc3, hc4, hc5⟩ := ih _ t s₂ hr hlen' hmr' hwlt
                  rcases c' with _ | ⟨⟨w₁, v₁⟩, rest⟩
                  · simp at hhead
                  · have hw₁ : w₁ = (t.matchRight.getD v.toNat 0).toNat := by
                      exact congrArg Prod.fst (Option.some.inj hhead)
                    refine ⟨(u, v) :: (w₁, v₁) :: rest, ?_, ⟨v, rfl⟩, ?_, ?_, ?_⟩
                    · show u < g.L ∧ 0 ≤ v ∧ v < g.rightSize ∧ v ∈ adj g u ∧
                        t.matchRight.getD v.toNat 0 = (w₁ : Int) ∧
                        ChainOK g t.matchRight ((w₁, v₁) :: rest)
                      refine ⟨hu, hv0, hvR, hsub v (List.mem_cons_self _ _), ?_, hc1⟩
                      rw [hw₁]
                      omega
                    · intro k hk
                      refine ⟨hk, ?_⟩
                      apply hc3
                      rw [hnx] at hdcval
                      rw [hk] at hdcval
                      exact hdcval
                    · show s₂.matchLeft.set u v = flipL ((u, v) :: (w₁, v₁) :: rest) t.matchLeft
                      rw [show flipL ((u, v) :: (w₁, v₁) :: rest) t.matchLeft =
                        (flipL ((w₁, v₁) :: rest) t.matchLeft).set u v from rfl, ← hc4]
                    · show s₂.matchRight.set v.toNat (u : Int) =
                        flipR ((u, v) :: (w₁, v₁) :: rest) t.matchRight
                      rw [show flipR ((u, v) :: (w₁, v₁) :: rest) t.matchRight =
                        (flipR ((w₁, v₁) :: rest) t.matchRight).set v.toNat (u : Int) from rfl,
                        ← hc5]
          · simp only [dfsGo, if_neg hvr, if_neg hdc] at hgo
            exact ihl (fun x hx => hsub x (List.mem_cons_of_mem _ hx)) t t' hlen' hmr' hgo
    exact main (adj g u) (fun _ hx => hx) s s' hlen hmr h

/-! ## Chain and flip algebra -/

lemma flipL_length (c : List (Nat × Int)) (ml : List Int) :
    (flipL c ml).length = ml.length := by
  induction c with
  | nil => rfl
  | cons p rest ih => simp [flipL] at ih ⊢; rw [ih]

lemma flipR_length (c : List (Nat × Int)) (mr : List Int) :
    (flipR c mr).length = mr.length := by
  induction c with
  | nil => rfl
  | cons p rest ih => simp [flipR] at ih ⊢; rw [ih]

lemma flipL_getD_not_mem (c : List (Nat × Int)) (ml : List Int) (x : Nat) (d : Int)
    (h : ∀ p ∈ c, p.1 ≠ x) : (flipL c ml).getD x d = ml.getD x d := by
  induction c with
  | nil => rfl
  | cons p rest ih =>
    show ((flipL rest ml).set p.1 p.2).getD x d = ml.getD x d
    rw [getD_set_ne _ _ _ (h p (List.mem_cons_self _ _)),
      ih (fun q hq => h q (List.mem_cons_of_mem _ hq))]

lemma flipL_getD_mem (c : List (Nat × Int)) (ml : List Int) (p : Nat × Int)
    (hp : p ∈ c) (hnd : c.Pairwise (fun a b => a.1 ≠ b.1)) (hx : p.1 < ml.length) :
    (flipL c ml).getD p.1 (-1) = p.2 := by
  induction c with
  | nil => cases hp
  | cons q rest ih =>
    rcases List.mem_cons.mp hp with rfl | hp2
    · show ((flipL rest ml).set p.1 p.2).getD p.1 (-1) = p.2
      exact getD_set_self _ _ _ _ (by rw [flipL_length]; exact hx)
    · have hq := (List.pairwise_cons.mp hnd).1 p hp2
      show ((flipL rest ml).set q.1 q.2).getD p.1 (-1) = p.2
      rw [getD_set_ne _ _ _ hq]
      exact ih hp2 (List.pairwise_cons.mp hnd).2

lemma flipR_getD_not_mem (c : List (Nat × Int)) (mr : List Int) (y : Nat) (d : Int)
    (h : ∀ p ∈ c, p.2.toNat ≠ y) : (flipR c mr).getD y d = mr.getD y d := by
  induction c with
  | nil => rfl
  | cons p rest ih =>
    show ((flipR rest mr).set p.2.toNat (p.1 : Int)).getD y d = mr.getD y d
    rw [getD_set_ne _ _ _ (h p (List.mem_cons_self _ _)),
      ih (fun q hq => h q (List.mem_cons_of_mem _ hq))]

lemma flipR_getD_mem (c : List (Nat × Int)) (mr : List Int) (p : Nat × Int)
    (hp : p ∈ c) (hnd : c.Pairwise (fun a b => a.2.toNat ≠ b.2.toNat))
    (hy : p.2.toNat < mr.length) :
    (flipR c mr).getD p.2.toNat (-1) = (p.1 : Int) := by
  induction c with
  | nil => cases hp
  | cons q rest ih =>
    rcases List.mem_cons.mp hp with rfl | hp2
    · show ((flipR rest mr).set p.2.toNat (p.1 : Int)).getD p.2.toNat (-1) = (p.1 : Int)
      exact getD_set_self _ _ _ _ (by rw [flipR_length]; exact hy)
    · have hq := (List.pairwise_cons.mp hnd).1 p hp2
      show ((flipR rest mr).set q.2.toNat (q.1 : Int)).getD p.2.toNat (-1) = (p.1 : Int)
      rw [getD_set_ne _ _ _ hq]
      exact ih hp2 (List.pairwise_cons.mp hnd).2

lemma chainOK_elem (g : BipartiteGraph) (mr : List Int) :
    ∀ c, ChainOK g mr c → ∀ p ∈ c,
      p.1 < g.L ∧ 0 ≤ p.2 ∧ p.2 < g.rightSize ∧ p.2 ∈ adj g p.1 := by
  intro c
  induction c with
  | nil => intro h; exact absurd h (by simp [ChainOK])
  | cons hd tl ih =>
    intro h p hp
    obtain ⟨u, v⟩ := hd
    cases tl with
    | nil =>
      obtain ⟨h1, h2, h3, h4, _⟩ := h
      have hp' : p = (u, v) := by simpa using hp
      subst hp'
      exact ⟨h1, h2, h3, h4⟩
    | cons hd2 tl2 =>
      obtain ⟨u2, v2⟩ := hd2
      obtain ⟨h1, h2, h3, h4, _, h6⟩ := h
      rcases List.mem_cons.mp hp with rfl | hp2
      · exact ⟨h1, h2, h3, h4⟩
      · exact ih h6 p hp2

lemma chain_pred (g : BipartiteGraph) (mr : List Int) :
    ∀ tl hd, ChainOK g mr (hd :: tl) → ∀ q ∈ tl,
      ∃ p ∈ hd :: tl, mr.getD p.2.toNat 0 = (q.1 : Int) := by
  intro tl
  induction tl with
  | nil => intro hd _ q hq; cases hq
  | cons hd2 tl2 ih =>
    intro hd h q hq
    obtain ⟨u, v⟩ := hd
    obtain ⟨u2, v2⟩ := hd2
    obtain ⟨_, _, _, _, h5, h6⟩ := h
    rcases List.mem_cons.mp hq with rfl | hq2
    · exact ⟨(u, v), List.mem_cons_self _ _, h5⟩
    · obtain ⟨p, hp, hpv⟩ := ih (u2, v2) h6 q hq2
      exact ⟨p, List.mem_cons_of_mem _ hp, hpv⟩

lemma chain_succ_dist (g : BipartiteGraph) (mr : List Int) (dist : List (Option Nat)) :
    ∀ c k, ChainOK g mr c → DistChain dist c k → ∀ p ∈ c,
      mr.getD p.2.toNat 0 = -1 ∨
        ∃ q ∈ c, mr.getD p.2.toNat 0 = (q.1 : Int) ∧
          ∃ j, dist.getD q.1 none = some j ∧ k + 1 ≤ j := by
  intro c
  induction c with
  | nil => intro k h; exact absurd h (by simp [ChainOK])
  | cons hd tl ih =>
    intro k h hdc p hp
    obtain ⟨u, v⟩ := hd
    cases tl with
    | nil =>
      obtain ⟨_, _, _, _, h5⟩ := h
      have hp' : p = (u, v) := by simpa using hp
      subst hp'
      exact Or.inl h5
    | cons hd2 tl2 =>
      obtain ⟨u2, v2⟩ := hd2
      obtain ⟨_, _, _, _, h5, h6⟩ := h
      obtain ⟨hd1, hdc2⟩ := hdc
      rcases List.mem_cons.mp hp with rfl | hp2
      · refine Or.inr ⟨(u2, v2), List.mem_cons_of_mem _ (List.mem_cons_self _ _), h5,
          k + 1, ?_, le_refl _⟩
        exact hdc2.1
      · rcases ih (k + 1) h6 hdc2 p hp2 with h7 | ⟨q, hq, hqv, j, hj, hjk⟩
        · exact Or.inl h7
        · exact Or.inr ⟨q, List.mem_cons_of_mem _ hq, hqv, j, hj, by omega⟩

lemma distChain_vals (dist : List (Option Nat)) :
    ∀ c k, DistChain dist c k → ∀ p ∈ c, ∃ j, k ≤ j ∧ dist.getD p.1 none = some j := by
  intro c
  induction c with
  | nil => intro k _ p hp; cases hp
  | cons hd tl ih =>
    intro k hdc p hp
    obtain ⟨u, v⟩ := hd
    obtain ⟨h1, h2⟩ := hdc
    rcases List.mem_cons.mp hp with rfl | hp2
    · exact ⟨k, le_refl k, h1⟩
    · obtain ⟨j, hj1, hj2⟩ := ih (k + 1) h2 p hp2
      exact ⟨j, by omega, hj2⟩

lemma distChain_fst_pairwise (dist : List (Option Nat)) :
    ∀ c k, DistChain dist c k → c.Pairwise (fun a b => a.1 ≠ b.1) := by
  intro c
  induction c with
  | nil => intro k _; exact List.Pairwise.nil
  | cons hd tl ih =>
    intro k hdc
    obtain ⟨u, v⟩ := hd
    obtain ⟨h1, h2⟩ := hdc
    refine List.pairwise_cons.mpr ⟨?_, ih (k + 1) h2⟩
    intro q hq he
    obtain ⟨j, hj1, hj2⟩ := distChain_vals dist tl (k + 1) h2 q hq
    rw [← he, h1] at hj2
    have : k = j := by
      exact Option.some.inj hj2
    omega

lemma chain_snd_pairwise (g : BipartiteGraph) (mr : List Int) (dist : List (Option Nat)) :
    ∀ c k, ChainOK g mr c → DistChain dist c k →
      c.Pairwise (fun a b => a.2.toNat ≠ b.2.toNat) := by
  intro c
  induction c with
  | nil => intro k _ _; exact List.Pairwise.nil
  | cons hd tl ih =>
    intro k h hdc
    obtain ⟨u, v⟩ := hd
    cases tl with
    | nil => simp
    | cons hd2 tl2 =>
      obtain ⟨u2, v2⟩ := hd2
      obtain ⟨_, _, _, _, h5, h6⟩ := h
      obtain ⟨hd1, hdc2⟩ := hdc
      refine List.pairwise_cons.mpr ⟨?_, ih (k + 1) h6 hdc2⟩
      intro q hq he
      have hmrq : mr.getD q.2.toNat 0 = (u2 : Int) := by
        rw [← he]
        exact h5
      rcases chain_succ_dist g mr dist ((u2, v2) :: tl2) (k + 1) h6 hdc2 q hq with h7 | h7
      · rw [hmrq] at h7
        simp at h7
      · obtain ⟨r, hr, hrv, j, hj, hjk⟩ := h7
        rw [hmrq] at hrv
        have hur : u2 = r.1 := by
          exact_mod_cast hrv
        rw [← hur] at hj
        rw [hdc2.1] at hj
        have : k + 1 = j := Option.some.inj hj
        omega

lemma matchedCount_eq (g : BipartiteGraph) (ml mr : List Int)
    (hlenL : ml.length = g.L) (hlenR : mr.length = g.Rn)
    (hL : ∀ u, u < g.L → leftConsAt g ml mr u)
    (hR : ∀ v, v < g.Rn → rightConsAt g ml mr v) :
    matchedCount ml = matchedCount mr := by
  unfold matchedCount
  apply Finset.card_bij' (fun i _ => (ml.getD i (-1)).toNat) (fun j _ => (mr.getD j (-1)).toNat)
  · intro a ha
    simp only [Finset.mem_filter, Finset.mem_range] at ha ⊢
    rcases hL a (by omega) with h1 | ⟨h0, hlt, _, hback⟩
    · exact absurd h1 ha.2
    · refine ⟨?_, ?_⟩
      · have : g.Rn = g.rightSize.toNat := rfl
        omega
      · rw [hback]
        simp
  · intro b hb
    simp only [Finset.mem_filter, Finset.mem_range] at hb ⊢
    rcases hR b (by omega) with h1 | ⟨h0, hlt, hback⟩
    · exact absurd h1 hb.2
    · refine ⟨?_, ?_⟩
      · have : g.L = g.leftSize.toNat := rfl
        omega
      · rw [hback]
        simp
  · intro a ha
    simp only [Finset.mem_filter, Finset.mem_range] at ha
    rcases hL a (by omega) with h1 | ⟨h0, hlt, _, hback⟩
    · exact absurd h1 ha.2
    · rw [hback]
      simp
  · intro b hb
    simp only [Finset.mem_filter, Finset.mem_range] at hb
    rcases hR b (by omega) with h1 | ⟨h0, hlt, hback⟩
    · exact absurd h1 hb.2
    · rw [hback]
      simp

lemma matchedCount_succ (ml ml' : List Int) (u₀ : Nat) (hlen : ml'.length = ml.length)
    (hu : u₀ < ml.length) (hfree : ml.getD u₀ (-1) = -1) (hm : ml'.getD u₀ (-1) ≠ -1)
    (hiff : ∀ x, x ≠ u₀ → (ml'.getD x (-1) = -1 ↔ ml.getD x (-1) = -1)) :
    matchedCount ml' = matchedCount ml + 1 := by
  unfold matchedCount
  rw [hlen]
  have hins : (Finset.range ml.length).filter (fun i => ml'.getD i (-1) ≠ -1) =
      insert u₀ ((Finset.range ml.length).filter (fun i => ml.getD i (-1) ≠ -1)) := by
    ext x
    simp only [Finset.mem_insert, Finset.mem_filter, Finset.mem_range]
    constructor
    · rintro ⟨hx, hx2⟩
      by_cases hxu : x = u₀
      · exact Or.inl hxu
      · exact Or.inr ⟨hx, fun hc => hx2 ((hiff x hxu).mpr hc)⟩
    · rintro (rfl | ⟨hx, hx2⟩)
      · exact ⟨hu, hm⟩
      · by_cases hxu : x = u₀
        · subst hxu
          exact ⟨hx, hm⟩
        · exact ⟨hx, fun hc => hx2 ((hiff x hxu).mp hc)⟩
  rw [hins, Finset.card_insert_of_not_mem]
  simp only [Finset.mem_filter, Finset.mem_range]
  rintro ⟨_, hx⟩
  exact hx hfree

lemma augment_step (g : BipartiteGraph) (ml mr : List Int) (dist : List (Option Nat))
    (c : List (Nat × Int)) (u₀ : Nat) (v₀ : Int) (k₀ : Nat)
    (hlenL : ml.length = g.L) (hlenR : mr.length = g.Rn)
    (hL : ∀ u, u < g.L → leftConsAt g ml mr u)
    (hR : ∀ v, v < g.Rn → rightConsAt g ml mr v)
    (hchain : ChainOK g mr c) (hdc : DistChain dist c k₀)
    (hhead : c.head? = some (u₀, v₀)) (hfree : ml.getD u₀ (-1) = -1) :
    (∀ u, u < g.L → leftConsAt g (flipL c ml) (flipR c mr) u) ∧
    (∀ v, v < g.Rn → rightConsAt g (flipL c ml) (flipR c mr) v) ∧
    matchedCount (flipL c ml) = matchedCount ml + 1 ∧
    (∀ x, x ≠ u₀ → ((flipL c ml).getD x (-1) = -1 ↔ ml.getD x (-1) = -1)) ∧
    (flipL c ml).getD u₀ (-1) ≠ -1 := by
  have hfst := distChain_fst_pairwise dist c k₀ hdc
  have hsnd := chain_snd_pairwise g mr dist c k₀ hchain hdc
  have helem := chainOK_elem g mr c hchain
  rcases c with _ | ⟨⟨uh, vh⟩, tl⟩
  · cases hhead
  have e := Option.some.inj hhead
  have e1 : u₀ = uh := (congrArg Prod.fst e).symm
  have e2 : v₀ = vh := (congrArg Prod.snd e).symm
  subst e1
  subst e2
  -- pointwise facts
  have hA1 : ∀ p ∈ (u₀, v₀) :: tl, (flipL ((u₀, v₀) :: tl) ml).getD p.1 (-1) = p.2 := by
    intro p hp
    exact flipL_getD_mem _ ml p hp hfst (by rw [hlenL]; exact (helem p hp).1)
  have hA2 : ∀ p ∈ (u₀, v₀) :: tl,
      (flipR ((u₀, v₀) :: tl) mr).getD p.2.toNat (-1) = (p.1 : Int) := by
    intro p hp
    refine flipR_getD_mem _ mr p hp hsnd ?_
    have := (helem p hp).2.1
    have := (helem p hp).2.2.1
    have : g.Rn = g.rightSize.toNat := rfl
    omega
  have hu₀mem : ((u₀, v₀) : Nat × Int) ∈ (u₀, v₀) :: tl := List.mem_cons_self _ _
  have hv₀0 : 0 ≤ v₀ := (helem _ hu₀mem).2.1
  have h5 : (flipL ((u₀, v₀) :: tl) ml).getD u₀ (-1) ≠ -1 := by
    have := hA1 _ hu₀mem
    rw [this]
    omega
  have hmrdef : ∀ p ∈ (u₀, v₀) :: tl, mr.getD p.2.toNat (-1) = mr.getD p.2.toNat 0 := by
    intro p hp
    refine getD_congr _ _ _ _ ?_
    have := (helem p hp).2.1
    have := (helem p hp).2.2.1
    have : g.Rn = g.rightSize.toNat := rfl
    omega
  have h4 : ∀ x, x ≠ u₀ →
      ((flipL ((u₀, v₀) :: tl) ml).getD x (-1) = -1 ↔ ml.getD x (-1) = -1) := by
    intro x hxu
    by_cases hmem : ∃ p ∈ (u₀, v₀) :: tl, p.1 = x
    · obtain ⟨p, hp, hpx⟩ := hmem
      have hml' : (flipL ((u₀, v₀) :: tl) ml).getD x (-1) = p.2 := by
        rw [← hpx]
        exact hA1 p hp
      have hp2 : 0 ≤ p.2 := (helem p hp).2.1
      have hptl : p ∈ tl := by
        rcases List.mem_cons.mp hp with rfl | h
        · exact absurd hpx.symm hxu
        · exact h
      obtain ⟨r, hr, hrv⟩ := chain_pred g mr tl (u₀, v₀) hchain p hptl
      have hrR : r.2.toNat < g.Rn := by
        have := (helem r hr).2.1
        have := (helem r hr).2.2.1
        have : g.Rn = g.rightSize.toNat := rfl
        omega
      rcases hR r.2.toNat hrR with h1 | ⟨h0, hlt, hback⟩
      · rw [hmrdef r hr, hrv] at h1
        omega
      · rw [hmrdef r hr, hrv] at h0 hlt hback
        have hxml : ml.getD x (-1) = (r.2.toNat : Int) := by
          have hxx : ((p.1 : Int)).toNat = x := by omega
          rw [← hxx]
          exact hback
        constructor
        · intro hcon
          rw [hml'] at hcon
          omega
        · intro hcon
          rw [hxml] at hcon
          omega
    · push_neg at hmem
      rw [flipL_getD_not_mem _ ml x (-1) (fun p hp => hmem p hp)]
  have h1 : ∀ u, u < g.L → leftConsAt g (flipL ((u₀, v₀) :: tl) ml)
      (flipR ((u₀, v₀) :: tl) mr) u := by
    intro u hu
    by_cases hmem : ∃ p ∈ (u₀, v₀) :: tl, p.1 = u
    · obtain ⟨p, hp, hpx⟩ := hmem
      subst hpx
      right
      unfold leftConsAt at *
      rw [hA1 p hp]
      exact ⟨(helem p hp).2.1, (helem p hp).2.2.1, (helem p hp).2.2.2, hA2 p hp⟩
    · push_neg at hmem
      unfold leftConsAt
      rw [flipL_getD_not_mem _ ml u (-1) (fun p hp => hmem p hp)]
      rcases hL u hu with hfr | ⟨h0, hlt, hadj, hback⟩
      · exact Or.inl hfr
      · right
        refine ⟨h0, hlt, hadj, ?_⟩
        rw [flipR_getD_not_mem _ mr (ml.getD u (-1)).toNat (-1) ?_]
        · exact hback
        · intro q hq hqe
          rcases chain_succ_dist g mr dist _ k₀ hchain hdc q hq with hql | ⟨r, hr, hrv, _⟩
          · rw [← hmrdef q hq, hqe] at hql
            rw [hql] at hback
            have := hu
            omega
          · rw [← hmrdef q hq, hqe] at hrv
            rw [hback] at hrv
            have hur : u = r.1 := by exact_mod_cast hrv
            exact hmem r hr hur.symm
  have h2 : ∀ y, y < g.Rn → rightConsAt g (flipL ((u₀, v₀) :: tl) ml)
      (flipR ((u₀, v₀) :: tl) mr) y := by
    intro y hy
    by_cases hmem : ∃ p ∈ (u₀, v₀) :: tl, p.2.toNat = y
    · obtain ⟨p, hp, hpy⟩ := hmem
      subst hpy
      right
      rw [hA2 p hp]
      have hpl := (helem p hp).1
      have hp0 := (helem p hp).2.1
      refine ⟨by omega, ?_, ?_⟩
      · have : g.L = g.leftSize.toNat := rfl
        omega
      · have hxx : ((p.1 : Int)).toNat = p.1 := by omega
        rw [hxx, hA1 p hp]
        omega
    · push_neg at hmem
      unfold rightConsAt
      rw [flipR_getD_not_mem _ mr y (-1) (fun p hp => hmem p hp)]
      rcases hR y hy with hfr | ⟨h0, hlt, hback⟩
      · exact Or.inl hfr
      · right
        refine ⟨h0, hlt, ?_⟩
        rw [flipL_getD_not_mem _ ml (mr.getD y (-1)).toNat (-1) ?_]
        · exact hback
        · intro q hq hqe
          rcases List.mem_cons.mp hq with rfl | hqtl
          · have hqe' : u₀ = (mr.getD y (-1)).toNat := hqe
            rw [← hqe'] at hback
            rw [hfree] at hback
            have hy0 : (0 : Int) ≤ (y : Int) := by omega
            omega
          · obtain ⟨r, hr, hrv⟩ := chain_pred g mr tl (u₀, v₀) hchain q hqtl
            rw [hqe] at hrv
            have hwnn : (0 : Int) ≤ mr.getD y (-1) := h0
            have hrv' : mr.getD r.2.toNat 0 = mr.getD y (-1) := by
              rw [hrv]
              omega
            have hrR : r.2.toNat < g.Rn := by
              have := (helem r hr).2.1
              have := (helem r hr).2.2.1
              have : g.Rn = g.rightSize.toNat := rfl
              omega
            rcases hR r.2.toNat hrR with hx1 | ⟨hx0, hxlt, hxback⟩
            · rw [hmrdef r hr, hrv'] at hx1
              omega
            · rw [hmrdef r hr, hrv'] at hxback
              rw [hback] at hxback
              have hyy : y = r.2.toNat := by exact_mod_cast hxback
              exact hmem r hr hyy.symm
  have h3 : matchedCount (flipL ((u₀, v₀) :: tl) ml) = matchedCount ml + 1 :=
    matchedCount_succ ml (flipL ((u₀, v₀) :: tl) ml) u₀ (flipL_length _ ml)
      (by rw [hlenL]; exact (helem _ hu₀mem).1) hfree h5 h4
  exact ⟨h1, h2, h3, h4, h5⟩

/-! ## Who can be relabelled by a `dfs` call -/

lemma dfs_dist_changed (g : BipartiteGraph) :
    ∀ (f u : Nat) (s : HKState) (z : Nat), s.matchRight.length = g.Rn →
      ((dfsF g f u s).2).dist.getD z none ≠ s.dist.getD z none →
      z = u ∨ ∃ i, i < g.Rn ∧ s.matchRight.getD i 0 = (z : Int) := by
  intro f
  induction f with
  | zero => intro u s z _ hch; exact absurd rfl hch
  | succ f ih =>
    intro u s z hlen hch
    by_cases hL : u = g.L
    · simp only [dfsF, if_pos hL] at hch
      exact absurd rfl hch
    · simp only [dfsF, if_neg hL] at hch
      have main : ∀ (l : List Int) (t : HKState), t.matchRight = s.matchRight →
          ((dfsGo g (dfsF g f) u l t).2).dist.getD z none ≠ t.dist.getD z none →
          z = u ∨ ∃ i, i < g.Rn ∧ s.matchRight.getD i 0 = (z : Int) := by
        intro l
        induction l with
        | nil =>
          intro t _ hch2
          simp only [dfsGo] at hch2
          by_cases hz : u = z
          · exact Or.inl hz.symm
          · rw [getD_set_ne t.dist none none hz] at hch2
            exact absurd rfl hch2
        | cons v vs ihl =>
          intro t hmr hch2
          by_cases hvr : v < 0 ∨ g.rightSize ≤ v
          · simp only [dfsGo, if_pos hvr] at hch2
            exact ihl t hmr hch2
          · by_cases hdc : distCheck t.dist (nextOf g.L (t.matchRight.getD v.toNat 0))
                (t.dist.getD u none) = true
            · obtain ⟨hnn, hlt, _⟩ := distCheck_true _ _ _ hdc
              rcases hr : dfsF g f (nextOf g.L (t.matchRight.getD v.toNat 0)).toNat t
                with ⟨b, s₁⟩
              simp only [dfsGo, if_neg hvr, if_pos hdc, hr] at hch2
              have hv0 : 0 ≤ v := le_of_not_lt (fun hc => hvr (Or.inl hc))
              have hvR : v < g.rightSize := lt_of_not_le (fun hc => hvr (Or.inr hc))
              have hvlen : v.toNat < g.Rn := by
                have : g.Rn = g.rightSize.toNat := rfl
                omega
              have hargs : ∀ z', s₁.dist.getD z' none ≠ t.dist.getD z' none →
                  z' = (nextOf g.L (t.matchRight.getD v.toNat 0)).toNat ∨
                  ∃ i, i < g.Rn ∧ s.matchRight.getD i 0 = (z' : Int) := by
                intro z' hz'
                have hih := ih (nextOf g.L (t.matchRight.getD v.toNat 0)).toNat t z'
                  (by rw [hmr]; exact hlen)
                rw [hr] at hih
                rcases hih hz' with h1 | ⟨i, hi1, hi2⟩
                · exact Or.inl h1
                · exact Or.inr ⟨i, hi1, by rw [← hmr]; exact hi2⟩
              have hargres : ∀ z', s₁.dist.getD z' none ≠ t.dist.getD z' none →
                  z' = u ∨ ∃ i, i < g.Rn ∧ s.matchRight.getD i 0 = (z' : Int) := by
                intro z' hz'
                rcases hargs z' hz' with h1 | h1
                · by_cases hm1 : t.matchRight.getD v.toNat 0 = -1
                  · exfalso
                    have hnx : (nextOf g.L (t.matchRight.getD v.toNat 0)).toNat = g.L := by
                      unfold nextOf
                      rw [if_pos hm1]
                      exact Int.toNat_natCast g.L
                    rw [hnx] at hr
                    cases f with
                    | zero =>
                      simp only [dfsF] at hr
                      cases hr
                      exact hz' rfl
                    | succ f' =>
                      simp only [dfsF, if_pos rfl] at hr
                      cases hr
                      exact hz' rfl
                  · have hmU0 : 0 ≤ t.matchRight.getD v.toNat 0 := by
                      unfold nextOf at hnn
                      rw [if_neg hm1] at hnn
                      exact hnn
                    have hnx : (nextOf g.L (t.matchRight.getD v.toNat 0)).toNat =
                        (t.matchRight.getD v.toNat 0).toNat := by
                      unfold nextOf
                      rw [if_neg hm1]
                    right
                    refine ⟨v.toNat, hvlen, ?_⟩
                    rw [← hmr]
                    rw [h1, hnx]
                    omega
                · exact Or.inr h1
              cases b
              · by_cases hmid : ((dfsGo g (dfsF g f) u vs s₁).2).dist.getD z none =
                    s₁.dist.getD z none
                · rw [hmid] at hch2
                  exact hargres z hch2
                · have hmr₁ : s₁.matchRight = s.matchRight := by
                    rw [← hmr]
                    exact (dfs_false_matching g f _ t s₁ hr).2
                  exact ihl s₁ hmr₁ hmid
              · exact hargres z hch2
            · simp only [dfsGo, if_neg hvr, if_neg hdc] at hch2
              exact ihl t hmr hch2
      exact main (adj g u) s rfl hch

/-! ## BFS: persistence of finite labels and array length -/

lemma bfsScanGo_finite_persist (rs : Int) (L : Nat) (mr : List Int) (u : Nat) :
    ∀ (l : List Int) (dist : List (Option Nat)) (app : List Nat) (z : Nat) (x : Nat),
      dist.getD z none = some x →
      ((bfsScanGo rs L mr u l dist app).1).getD z none = some x := by
  intro l
  induction l with
  | nil => intro dist app z x h; exact h
  | cons v vs ih =>
    intro dist app z x h
    simp only [bfsScanGo]
    split
    · exact ih dist app z x h
    · split
      · rename_i hnone
        have hzt : z ≠ tgtOf L (mr.getD v.toNat 0) := by
          intro hc
          rw [← hc] at hnone
          rw [h] at hnone
          cases hnone
        have hset : (dist.set (tgtOf L (mr.getD v.toNat 0))
            (oAdd1 (dist.getD u none))).getD z none = some x := by
          rw [getD_set_ne _ _ _ (fun hc => hzt hc.symm)]
          exact h
        split
        · exact ih _ _ z x hset
        · exact ih _ _ z x hset
      · exact ih dist app z x h

lemma bfsLoopF_finite_persist (g : BipartiteGraph) (mr : List Int) :
    ∀ (fuel : Nat) (dist : List (Option Nat)) (q : List Nat) (z : Nat) (x : Nat),
      dist.getD z none = some x →
      (bfsLoopF g mr fuel dist q).getD z none = some x := by
  intro fuel
  induction fuel with
  | zero => intro dist q z x h; exact h
  | succ fuel ih =>
    intro dist q z x h
    cases q with
    | nil => exact h
    | cons u queue =>
      simp only [bfsLoopF]
      split
      · exact ih _ _ z x (bfsScanGo_finite_persist g.rightSize g.L mr u (adj g u) dist [] z x h)
      · exact ih dist queue z x h

lemma bfsScanGo_length (rs : Int) (L : Nat) (mr : List Int) (u : Nat) :
    ∀ (l : List Int) (dist : List (Option Nat)) (app : List Nat),
      ((bfsScanGo rs L mr u l dist app).1).length = dist.length := by
  intro l
  induction l with
  | nil => intro dist app; rfl
  | cons v vs ih =>
    intro dist app
    simp only [bfsScanGo]
    split
    · exact ih dist app
    · split
      · split
        · rw [ih _ _]
          simp
        · rw [ih _ _]
          simp
      · exact ih dist app

lemma bfsLoopF_length (g : BipartiteGraph) (mr : List Int) :
    ∀ (fuel : Nat) (dist : List (Option Nat)) (q : List Nat),
      (bfsLoopF g mr fuel dist q).length = dist.length := by
  intro fuel
  induction fuel with
  | zero => intro dist q; rfl
  | succ fuel ih =>
    intro dist q
    cases q with
    | nil => rfl
    | cons u queue =>
      simp only [bfsLoopF]
      split
      · rw [ih _ _, bfsScanGo_length]
      · exact ih dist queue

lemma bfsInitDist_length (ml : List Int) : (bfsInitDist ml).length = ml.length + 1 := by
  simp [bfsInitDist]

lemma bfsDist_length (g : BipartiteGraph) (ml mr : List Int) :
    (bfsDist g ml mr).length = ml.length + 1 := by
  unfold bfsDist
  rw [bfsLoopF_length, bfsInitDist_length]

lemma bfsInitDist_free (ml : List Int) (u : Nat) (hu : u < ml.length)
    (hfree : ml.getD u (-1) = -1) : (bfsInitDist ml).getD u none = some 0 := by
  unfold bfsInitDist
  rw [List.getD_append _ _ _ _ (by simpa using hu)]
  have hg : (List.map (fun m => if m = -1 then some 0 else none) ml).getD u none =
      (fun m => if m = -1 then (some 0 : Option Nat) else none) (ml.getD u (-1)) := by
    rw [List.getD_eq_getElem?_getD, List.getElem?_map]
    rw [List.getElem?_eq_getElem hu]
    simp only [Option.map_some', Option.getD_some]
    rw [List.getD_eq_getElem?_getD, List.getElem?_eq_getElem hu]
    rfl
  rw [hg, hfree]
  simp

lemma bfsDist_free (g : BipartiteGraph) (ml mr : List Int) (u : Nat) (hu : u < ml.length)
    (hfree : ml.getD u (-1) = -1) : (bfsDist g ml mr).getD u none = some 0 := by
  unfold bfsDist
  exact bfsLoopF_finite_persist g mr _ _ _ u 0 (bfsInitDist_free ml u hu hfree)

/-! ## The augmentation pass preserves the invariant and counts its successes -/

lemma minv_mrrange (g : BipartiteGraph) (s : HKState) (h : MatchInv g s) :
    MRRange g s.matchRight := by
  intro i hi
  have hiRn : i < g.Rn := by rw [← h.2.1]; exact hi
  rcases h.2.2.2.2 i hiRn with h1 | ⟨h0, hlt, _⟩
  · exact Or.inl h1
  · exact Or.inr ⟨h0, hlt⟩

lemma passGo_inv (g : BipartiteGraph) (f : Nat) :
    ∀ (us : List Nat) (t : HKState) (cnt : Nat),
      MatchInv g t → us.Nodup →
      (∀ u ∈ us, u < g.L) →
      (∀ u ∈ us, t.matchLeft.getD u (-1) = -1 → t.dist.getD u none = some 0) →
      MatchInv g (passGo g f us t cnt).1 ∧
      (passGo g f us t cnt).2 + matchedCount t.matchLeft =
        cnt + matchedCount ((passGo g f us t cnt).1).matchLeft := by
  intro us
  induction us with
  | nil =>
    intro t cnt hinv _ _ _
    simp only [passGo]
    exact ⟨hinv, trivial⟩
  | cons u us' ih =>
    intro t cnt hinv hnd hlt hdist
    obtain ⟨hlenL, hlenR, hlenD, hLcons, hRcons⟩ := hinv
    have huL : u < g.L := hlt u (List.mem_cons_self _ _)
    have hudef : t.matchLeft.getD u 0 = t.matchLeft.getD u (-1) :=
      (getD_congr _ _ _ _ (by omega)).symm
    by_cases hfree : t.matchLeft.getD u 0 = -1
    · have hfree' : t.matchLeft.getD u (-1) = -1 := by rw [← hudef]; exact hfree
      rcases hr : dfsF g f u t with ⟨b, s'⟩
      have hshape := dfs_shape g f u t
      rw [hr] at hshape
      cases b
      · -- failed augmentation: matching unchanged, only dist marks
        simp only [passGo, if_pos hfree, hr]
        obtain ⟨hmlEq, hmrEq⟩ := dfs_false_matching g f u t s' hr
        have hinv' : MatchInv g s' := by
          refine ⟨by rw [hmlEq]; exact hlenL, by rw [hmrEq]; exact hlenR,
            by rw [hshape.2.2]; exact hlenD, ?_, ?_⟩
          · intro u' hu'
            rw [hmlEq, hmrEq]
            exact hLcons u' hu'
          · intro v' hv'
            rw [hmlEq, hmrEq]
            exact hRcons v' hv'
        have hdist' : ∀ u' ∈ us', s'.matchLeft.getD u' (-1) = -1 →
            s'.dist.getD u' none = some 0 := by
          intro u' hu' hfr
          have hfr0 : t.matchLeft.getD u' (-1) = -1 := by rw [← hmlEq]; exact hfr
          have ht0 := hdist u' (List.mem_cons_of_mem _ hu') hfr0
          by_cases hchg : s'.dist.getD u' none = t.dist.getD u' none
          · rw [hchg]; exact ht0
          · exfalso
            have hc := dfs_dist_changed g f u t u' hlenR
            rw [hr] at hc
            rcases hc hchg with h1 | ⟨i, hi1, hi2⟩
            · exact (List.nodup_cons.mp hnd).1 (h1 ▸ hu')
            · have hidef : t.matchRight.getD i (-1) = t.matchRight.getD i 0 :=
                getD_congr _ _ _ _ (by omega)
              rcases hRcons i hi1 with hx | ⟨hx0, hxlt, hxback⟩
              · rw [hidef, hi2] at hx
                omega
              · rw [hidef, hi2] at hx0 hxlt hxback
                have : ((u' : Int)).toNat = u' := by omega
                rw [this] at hxback
                rw [hfr0] at hxback
                omega
        obtain ⟨hi1, hi2⟩ := ih s' cnt hinv' (List.nodup_cons.mp hnd).2
          (fun x hx => hlt x (List.mem_cons_of_mem _ hx)) hdist'
        refine ⟨hi1, ?_⟩
        rw [hmlEq] at hi2
        omega
      · -- successful augmentation
        simp only [passGo, if_pos hfree, hr]
        obtain ⟨c, hc1, ⟨v0, hhead⟩, hc3, hc4, hc5⟩ :=
          dfs_true_chain g f u t s' hr hlenR (minv_mrrange g t
            ⟨hlenL, hlenR, hlenD, hLcons, hRcons⟩) huL
        have hdist0 : t.dist.getD u none = some 0 :=
          hdist u (List.mem_cons_self _ _) hfree'
        have hdc := hc3 0 hdist0
        obtain ⟨hA, hB, hC, hD, hE⟩ := augment_step g t.matchLeft t.matchRight t.dist c u v0 0
          hlenL hlenR hLcons hRcons hc1 hdc hhead hfree'
        have hinv' : MatchInv g s' := by
          refine ⟨by rw [hc4, flipL_length]; exact hlenL,
            by rw [hc5, flipR_length]; exact hlenR,
            by rw [hshape.2.2]; exact hlenD, ?_, ?_⟩
          · intro u' hu'
            rw [hc4, hc5]
            exact hA u' hu'
          · intro v' hv'
            rw [hc4, hc5]
            exact hB v' hv'
        have hdist' : ∀ u' ∈ us', s'.matchLeft.getD u' (-1) = -1 →
            s'.dist.getD u' none = some 0 := by
          intro u' hu' hfr
          have hne : u' ≠ u := by
            intro hc
            exact (List.nodup_cons.mp hnd).1 (hc ▸ hu')
          have hfr0 : t.matchLeft.getD u' (-1) = -1 := by
            have := hD u' hne
            rw [hc4] at hfr
            exact this.mp hfr
          have ht0 := hdist u' (List.mem_cons_of_mem _ hu') hfr0
          by_cases hchg : s'.dist.getD u' none = t.dist.getD u' none
          · rw [hchg]; exact ht0
          · exfalso
            have hc := dfs_dist_changed g f u t u' hlenR
            rw [hr] at hc
            rcases hc hchg with h1 | ⟨i, hi1, hi2⟩
            · exact hne h1
            · have hidef : t.matchRight.getD i (-1) = t.matchRight.getD i 0 :=
                getD_congr _ _ _ _ (by omega)
              rcases hRcons i hi1 with hx | ⟨hx0, hxlt, hxback⟩
              · rw [hidef, hi2] at hx
                omega
              · rw [hidef, hi2] at hx0 hxlt hxback
                have : ((u' : Int)).toNat = u' := by omega
                rw [this] at hxback
                rw [hfr0] at hxback
                omega
        obtain ⟨hi1, hi2⟩ := ih s' (cnt + 1) hinv' (List.nodup_cons.mp hnd).2
          (fun x hx => hlt x (List.mem_cons_of_mem _ hx)) hdist'
        refine ⟨hi1, ?_⟩
        have hcount : matchedCount s'.matchLeft = matchedCount t.matchLeft + 1 := by
          rw [hc4]
          exact hC
        omega
    · simp only [passGo, if_neg hfree]
      exact ih t cnt ⟨hlenL, hlenR, hlenD, hLcons, hRcons⟩ (List.nodup_cons.mp hnd).2
        (fun x hx => hlt x (List.mem_cons_of_mem _ hx))
        (fun x hx => hdist x (List.mem_cons_of_mem _ hx))

/-! ## The phase loop preserves the invariant; the counter counts new matches -/

lemma minv_bfs_state (g : BipartiteGraph) (s : HKState) (hinv : MatchInv g s) :
    MatchInv g { s with dist := bfsDist g s.matchLeft s.matchRight } := by
  obtain ⟨hlenL, hlenR, hlenD, hL, hR⟩ := hinv
  exact ⟨hlenL, hlenR, by rw [bfsDist_length, hlenL], hL, hR⟩

lemma hkLoop_inv (g : BipartiteGraph) :
    ∀ (fuel : Nat) (s : HKState) (cnt : Nat), MatchInv g s →
      MatchInv g (hkLoop g fuel s cnt).1 ∧
      (hkLoop g fuel s cnt).2 + matchedCount s.matchLeft =
        cnt + matchedCount ((hkLoop g fuel s cnt).1).matchLeft := by
  intro fuel
  induction fuel with
  | zero =>
    intro s cnt hinv
    simp only [hkLoop]
    exact ⟨hinv, trivial⟩
  | succ fuel ih =>
    intro s cnt hinv
    simp only [hkLoop]
    split
    · have hinv1 := minv_bfs_state g s hinv
      have hpass := passGo_inv g (g.L + 2) (List.range g.L)
        { s with dist := bfsDist g s.matchLeft s.matchRight } cnt hinv1
        (List.nodup_range _) (fun x hx => List.mem_range.mp hx)
        (fun x hx hfr => bfsDist_free g s.matchLeft s.matchRight x
          (by rw [hinv.1]; exact List.mem_range.mp hx) hfr)
      obtain ⟨hp1, hp2⟩ := hpass
      obtain ⟨hl1, hl2⟩ := ih _ _ hp1
      have hml : ({ s with dist := bfsDist g s.matchLeft s.matchRight } : HKState).matchLeft =
          s.matchLeft := rfl
      rw [hml] at hp2
      exact ⟨hl1, by omega⟩
    · exact ⟨minv_bfs_state g s hinv, rfl⟩

lemma matchedCount_le (l : List Int) : matchedCount l ≤ l.length := by
  unfold matchedCount
  calc ((Finset.range l.length).filter _).card ≤ (Finset.range l.length).card :=
        Finset.card_filter_le _ _
    _ = l.length := Finset.card_range _

lemma initState_minv (g : BipartiteGraph) : MatchInv g (initState g) := by
  refine ⟨by simp [initState], by simp [initState, BipartiteGraph.Rn], by simp [initState], ?_, ?_⟩
  · intro u hu
    left
    show (List.replicate g.L (-1 : Int)).getD u (-1) = -1
    rw [getD_replicate]
    split <;> rfl
  · intro v hv
    left
    show (List.replicate g.rightSize.toNat (-1 : Int)).getD v (-1) = -1
    rw [getD_replicate]
    split <;> rfl

lemma findMaximumMatching_size_eq (g : BipartiteGraph) :
    (findMaximumMatching g).size = matchedCount (findMaximumMatching g).matchLeft ∧
    MatchInv g (findMaximumMatchingFrom g (initState g)).2 := by
  have h := hkLoop_inv g (g.L + 1) (initState g) 0 (initState_minv g)
  have hzero : matchedCount (initState g).matchLeft = 0 := by
    unfold matchedCount
    rw [Finset.card_eq_zero]
    ext x
    simp only [Finset.mem_filter, Finset.mem_range, Finset.not_mem_empty, iff_false, not_and]
    intro hx
    show ¬ (List.replicate g.L (-1 : Int)).getD x (-1) ≠ -1
    rw [getD_replicate]
    split <;> simp
  constructor
  · show (hkLoop g (g.L + 1) (initState g) 0).2 =
      matchedCount ((hkLoop g (g.L + 1) (initState g) 0).1).matchLeft
    have := h.2
    rw [hzero] at this
    omega
  · exact h.1

/-- C3 (amended to a first call on a freshly constructed engine): the returned
matching has `size` equal to the number of non-sentinel entries of both
`matchLeft` and `matchRight`, the arrays have the partition lengths, and every
matched pair is referentially consistent along a listed in-range edge. -/
theorem findMaximumMatching_wellformed (g : BipartiteGraph)
    (hls : 0 ≤ g.leftSize) (hrs : 0 ≤ g.rightSize) :
    (findMaximumMatching g).size = matchedCount (findMaximumMatching g).matchLeft ∧
    (findMaximumMatching g).size = matchedCount (findMaximumMatching g).matchRight ∧
    (findMaximumMatching g).matchLeft.length = g.L ∧
    (findMaximumMatching g).matchRight.length = g.Rn ∧
    (∀ u, u < g.L → (findMaximumMatching g).matchLeft.getD u (-1) ≠ -1 →
      0 ≤ (findMaximumMatching g).matchLeft.getD u (-1) ∧
      (findMaximumMatching g).matchLeft.getD u (-1) < g.rightSize ∧
      (findMaximumMatching g).matchLeft.getD u (-1) ∈ adj g u ∧
      (findMaximumMatching g).matchRight.getD
        ((findMaximumMatching g).matchLeft.getD u (-1)).toNat (-1) = (u : Int)) := by
  obtain ⟨hsz, hminv⟩ := findMaximumMatching_size_eq g
  obtain ⟨hlenL, hlenR, hlenD, hL, hR⟩ := hminv
  have hmlEq : (findMaximumMatching g).matchLeft =
      ((findMaximumMatchingFrom g (initState g)).2).matchLeft := rfl
  have hmrEq : (findMaximumMatching g).matchRight =
      ((findMaximumMatchingFrom g (initState g)).2).matchRight := rfl
  refine ⟨hsz, ?_, ?_, ?_, ?_⟩
  · rw [hsz, hmlEq, hmrEq]
    exact matchedCount_eq g _ _ hlenL hlenR hL hR
  · rw [hmlEq]
    exact hlenL
  · rw [hmrEq]
    exact hlenR
  · intro u hu hne
    rw [hmlEq, hmrEq]
    rw [hmlEq] at hne
    rcases hL u hu with h1 | ⟨h0, hlt, hadj, hback⟩
    · exact absurd h1 hne
    · exact ⟨h0, hlt, hadj, hback⟩

/-- Witness for C3 at the one-edge graph. -/
theorem findMaximumMatching_wellformed_witness :
    (0 : Int) ≤ gPair.leftSize ∧ (0 : Int) ≤ gPair.rightSize ∧
    (findMaximumMatching gPair).size = matchedCount (findMaximumMatching gPair).matchLeft :=
  ⟨by decide, by decide,
    (findMaximumMatching_wellformed gPair (by decide) (by decide)).1⟩

/-- C8: the size of every returned matching is at most the smaller partition
size. -/
theorem findMaximumMatching_size_le (g : BipartiteGraph)
    (hls : 0 ≤ g.leftSize) (hrs : 0 ≤ g.rightSize) :
    ((findMaximumMatching g).size : Int) ≤ min g.leftSize g.rightSize := by
  obtain ⟨hsz, hminv⟩ := findMaximumMatching_size_eq g
  obtain ⟨hlenL, hlenR, hlenD, hL, hR⟩ := hminv
  have h1 := matchedCount_le ((findMaximumMatchingFrom g (initState g)).2).matchLeft
  have h2 := matchedCount_le ((findMaximumMatchingFrom g (initState g)).2).matchRight
  have heq := matchedCount_eq g _ _ hlenL hlenR hL hR
  have hsz' : (findMaximumMatching g).size =
      matchedCount ((findMaximumMatchingFrom g (initState g)).2).matchLeft := hsz
  have hLdef : g.L = g.leftSize.toNat := rfl
  have hRdef : g.Rn = g.rightSize.toNat := rfl
  omega

/-- Witness for C8 at the one-edge graph. -/
theorem findMaximumMatching_size_le_witness :
    ((findMaximumMatching gPair).size : Int) ≤ min gPair.leftSize gPair.rightSize :=
  findMaximumMatching_size_le gPair (by decide) (by decide)

/-! ## C7: out-of-range adjacency entries are skipped by the search -/

lemma sanitize_rightSize (g : BipartiteGraph) : (sanitizeGraph g).rightSize = g.rightSize :=
  rfl

lemma sanitize_L (g : BipartiteGraph) : (sanitizeGraph g).L = g.L := rfl

/-- The adjacency list of the sanitised graph is the filtered adjacency list of
the original. -/
lemma adj_sanitize (g : BipartiteGraph) (u : Nat) :
    adj (sanitizeGraph g) u =
      (adj g u).filter (fun v => if v < 0 ∨ g.rightSize ≤ v then false else true) := by
  unfold adj sanitizeGraph
  by_cases hu : u < g.edges.length
  · rw [List.getD_eq_getElem?_getD, List.getD_eq_getElem?_getD,
        List.getElem?_map _ _ u, List.getElem?_eq_getElem hu]
    rfl
  · rw [List.getD_eq_default _ _ (by simpa using Nat.le_of_not_lt hu),
        List.getD_eq_default _ _ (Nat.le_of_not_lt hu)]
    rfl

/-- The BFS edge scan ignores exactly the entries the sanitiser removes. -/
lemma bfsScanGo_filter (rs : Int) (L : Nat) (mr : List Int) (u : Nat) :
    ∀ l dist app,
      bfsScanGo rs L mr u (l.filter (fun v => if v < 0 ∨ rs ≤ v then false else true)) dist app
        = bfsScanGo rs L mr u l dist app := by
  intro l
  induction l with
  | nil => intro dist app; rfl
  | cons v vs ih =>
    intro dist app
    by_cases hv : v < 0 ∨ rs ≤ v
    · rw [List.filter_cons, if_neg (by simp [hv])]
      rw [show bfsScanGo rs L mr u (v :: vs) dist app = bfsScanGo rs L mr u vs dist app from by
        simp only [bfsScanGo, if_pos hv]]
      exact ih dist app
    · rw [List.filter_cons, if_pos (by simp [hv])]
      simp only [bfsScanGo, if_neg hv]
      split
      · split
        · exact ih _ _
        · exact ih _ _
      · exact ih _ _

/-- The BFS queue loop cannot tell the sanitised graph from the original. -/
lemma bfsLoopF_sanitize (g : BipartiteGraph) (mr : List Int) :
    ∀ fuel dist q, bfsLoopF (sanitizeGraph g) mr fuel dist q = bfsLoopF g mr fuel dist q := by
  intro fuel
  induction fuel with
  | zero => intro dist q; rfl
  | succ f ih =>
    intro dist q
    cases q with
    | nil => rfl
    | cons u qs =>
      simp only [bfsLoopF, sanitize_L, sanitize_rightSize, adj_sanitize, bfsScanGo_filter]
      split
      · exact ih _ _
      · exact ih _ _

/-- `bfs` produces the same distance array on the sanitised graph. -/
lemma bfsDist_sanitize (g : BipartiteGraph) (ml mr : List Int) :
    bfsDist (sanitizeGraph g) ml mr = bfsDist g ml mr := by
  unfold bfsDist
  rw [sanitize_L, bfsLoopF_sanitize]

lemma bfsReachable_sanitize (g : BipartiteGraph) (dist : List (Option Nat)) :
    bfsReachable (sanitizeGraph g) dist = bfsReachable g dist := by
  unfold bfsReachable
  rw [sanitize_L]

/-- The DFS neighbour loop ignores exactly the entries the sanitiser removes
(stated with a congruence in the recursive call so it can be used under the
fuel induction). -/
lemma dfsGo_sanitize (g : BipartiteGraph) (r r' : Nat → HKState → Bool × HKState)
    (hr : ∀ w t, r w t = r' w t) (u : Nat) :
    ∀ l s,
      dfsGo (sanitizeGraph g) r u
          (l.filter (fun v => if v < 0 ∨ g.rightSize ≤ v then false else true)) s
        = dfsGo g r' u l s := by
  intro l
  induction l with
  | nil => intro s; rfl
  | cons v vs ih =>
    intro s
    by_cases hv : v < 0 ∨ g.rightSize ≤ v
    · rw [List.filter_cons, if_neg (by simp [hv])]
      rw [show dfsGo g r' u (v :: vs) s = dfsGo g r' u vs s from by
        simp only [dfsGo, if_pos hv]]
      exact ih s
    · rw [List.filter_cons, if_pos (by simp [hv])]
      simp only [dfsGo, sanitize_rightSize, sanitize_L, if_neg hv]
      rw [hr]
      split
      · split
        · rfl
        · exact ih _
      · exact ih s

/-- `dfs` cannot tell the sanitised graph from the original. -/
lemma dfsF_sanitize (g : BipartiteGraph) :
    ∀ f u s, dfsF (sanitizeGraph g) f u s = dfsF g f u s := by
  intro f
  induction f with
  | zero => intro u s; rfl
  | succ f ih =>
    intro u s
    simp only [dfsF, sanitize_L]
    split
    · rfl
    · rw [adj_sanitize]
      exact dfsGo_sanitize g (dfsF (sanitizeGraph g) f) (dfsF g f) ih u (adj g u) s

/-- One augmentation pass is unchanged by sanitisation. -/
lemma passGo_sanitize (g : BipartiteGraph) (fuel : Nat) :
    ∀ us s c, passGo (sanitizeGraph g) fuel us s c = passGo g fuel us s c := by
  intro us
  induction us with
  | nil => intro s c; rfl
  | cons u us ih =>
    intro s c
    simp only [passGo, dfsF_sanitize]
    split
    · split
      · exact ih _ _
      · exact ih _ _
    · exact ih _ _

/-- The phase loop is unchanged by sanitisation. -/
lemma hkLoop_sanitize (g : BipartiteGraph) :
    ∀ fuel s c, hkLoop (sanitizeGraph g) fuel s c = hkLoop g fuel s c := by
  intro fuel
  induction fuel with
  | zero => intro s c; rfl
  | succ f ih =>
    intro s c
    simp only [hkLoop, bfsDist_sanitize, bfsReachable_sanitize, sanitize_L, passGo_sanitize]
    split
    · rw [ih]
    · rfl

lemma initState_sanitize (g : BipartiteGraph) : initState (sanitizeGraph g) = initState g :=
  rfl

/-- C7: on any graph with non-negative partition sizes, `findMaximumMatching`
is a total function returning the same matching as on the graph with every
out-of-range adjacency entry removed — the BFS layering and the DFS
augmentation both skip such entries — and the sanitised graph's adjacency
entries are all within `[0, rightSize)`. -/
theorem findMaximumMatching_skips_invalid (g : BipartiteGraph)
    (hls : 0 ≤ g.leftSize) (hrs : 0 ≤ g.rightSize) :
    findMaximumMatching g = findMaximumMatching (sanitizeGraph g) ∧
    ∀ u : Nat, ∀ v ∈ adj (sanitizeGraph g) u, 0 ≤ v ∧ v < g.rightSize := by
  constructor
  · unfold findMaximumMatching findMaximumMatchingFrom
    rw [initState_sanitize, sanitize_L, hkLoop_sanitize]
  · intro u v hv
    rw [adj_sanitize] at hv
    have hP := List.of_mem_filter hv
    by_cases h : v < 0 ∨ g.rightSize ≤ v
    · rw [if_pos h] at hP
      exact absurd hP (by simp)
    · refine ⟨?_, ?_⟩ <;> omega

/-- Witness for C7 at a concrete graph holding out-of-range entries. -/
theorem findMaximumMatching_skips_invalid_witness :
    ((0 : Int) ≤ gBad.leftSize ∧ (0 : Int) ≤ gBad.rightSize) ∧
    (findMaximumMatching gBad = findMaximumMatching (sanitizeGraph gBad) ∧
     ∀ u : Nat, ∀ v ∈ adj (sanitizeGraph gBad) u, 0 ≤ v ∧ v < gBad.rightSize) :=
  ⟨⟨by decide, by decide⟩,
    findMaximumMatching_skips_invalid gBad (by decide) (by decide)⟩

/-! ## C1 machinery: small helpers and `Aug` algebra -/

lemma oLt_some (x y : Option Nat) (h : oLt x y = true) : ∃ a, x = some a := by
  cases x with
  | none => simp [oLt] at h
  | some a => exact ⟨a, rfl⟩

lemma noneCount_le (dist : List (Option Nat)) : noneCount dist ≤ dist.length := by
  unfold noneCount
  calc ((Finset.range dist.length).filter _).card ≤ (Finset.range dist.length).card :=
        Finset.card_filter_le _ _
    _ = dist.length := Finset.card_range _

lemma noneCount_set_some (dist : List (Option Nat)) (t : Nat) (x : Nat)
    (ht : t < dist.length) (hn : dist.getD t none = none) :
    noneCount (dist.set t (some x)) + 1 = noneCount dist := by
  unfold noneCount
  rw [List.length_set]
  have hmem : t ∈ (Finset.range dist.length).filter (fun i => dist.getD i none = none) :=
    Finset.mem_filter.mpr ⟨Finset.mem_range.mpr ht, hn⟩
  have key : (Finset.range dist.length).filter
        (fun i => (dist.set t (some x)).getD i none = none) =
      ((Finset.range dist.length).filter (fun i => dist.getD i none = none)).erase t := by
    ext i
    simp only [Finset.mem_erase, Finset.mem_filter, Finset.mem_range]
    constructor
    · rintro ⟨hi, hnone⟩
      by_cases hit : i = t
      · subst hit
        rw [getD_set_self _ _ _ _ ht] at hnone
        cases hnone
      · refine ⟨hit, hi, ?_⟩
        rw [getD_set_ne _ _ _ (fun h => hit h.symm)] at hnone
        exact hnone
    · rintro ⟨hit, hi, hnone⟩
      exact ⟨hi, by rw [getD_set_ne _ _ _ (fun h => hit h.symm)]; exact hnone⟩
  rw [key, Finset.card_erase_of_mem hmem]
  have hpos : 0 < ((Finset.range dist.length).filter (fun i => dist.getD i none = none)).card :=
    Finset.card_pos.mpr ⟨t, hmem⟩
  omega

lemma bfsScanGo_nonone (rs : Int) (L : Nat) (mr : List Int) (u : Nat)
    (l : List Int) (dist : List (Option Nat)) (app : List Nat) (z : Nat)
    (h : dist.getD z none ≠ none) :
    ((bfsScanGo rs L mr u l dist app).1).getD z none ≠ none := by
  rcases hx : dist.getD z none with _ | x
  · exact absurd hx h
  · rw [bfsScanGo_finite_persist rs L mr u l dist app z x hx]
    simp

lemma bfsLoopF_nonone (g : BipartiteGraph) (mr : List Int) (fuel : Nat)
    (dist : List (Option Nat)) (q : List Nat) (z : Nat)
    (h : dist.getD z none ≠ none) :
    (bfsLoopF g mr fuel dist q).getD z none ≠ none := by
  rcases hx : dist.getD z none with _ | x
  · exact absurd hx h
  · rw [bfsLoopF_finite_persist g mr fuel dist q z x hx]
    simp

lemma expanded_mono (g : BipartiteGraph) (mr : List Int)
    (dist dist' : List (Option Nat)) (u : Nat) (h : Expanded g mr dist u)
    (hmono : ∀ z, dist.getD z none ≠ none → dist'.getD z none ≠ none) :
    Expanded g mr dist' u :=
  fun v hv h0 hR => hmono _ (h v hv h0 hR)

lemma aug_elim {g : BipartiteGraph} {mr : List Int} {dist : List (Option Nat)} {u k : Nat}
    (h : Aug g mr dist u k) : u < g.L ∧ dist.getD u none = some k := by
  cases h with
  | free u k v h1 h2 h3 h4 h5 h6 h7 => exact ⟨h2, h1⟩
  | step u k v w h1 h2 h3 h4 h5 h6 h7 h8 h9 => exact ⟨h2, h1⟩

lemma aug_sink {g : BipartiteGraph} {mr : List Int} {dist : List (Option Nat)} {u k : Nat}
    (h : Aug g mr dist u k) : ∃ m : Nat, dist.getD g.L none = some m := by
  induction h with
  | free u k v h1 h2 h3 h4 h5 h6 h7 => exact ⟨k + 1, h7⟩
  | step u k v w h1 h2 h3 h4 h5 h6 h7 h8 h9 ih => exact ih

lemma aug_persist (g : BipartiteGraph) (mr : List Int) (dist dist' : List (Option Nat))
    (hL : dist'.getD g.L none = dist.getD g.L none)
    (hAug : ∀ z k', Aug g mr dist z k' → dist'.getD z none = dist.getD z none) :
    ∀ u k, Aug g mr dist u k → Aug g mr dist' u k := by
  intro u k h
  induction h with
  | free u k v h1 h2 h3 h4 h5 h6 h7 =>
    exact Aug.free u k v
      (by rw [hAug u k (Aug.free u k v h1 h2 h3 h4 h5 h6 h7)]; exact h1)
      h2 h3 h4 h5 h6 (by rw [hL]; exact h7)
  | step u k v w h1 h2 h3 h4 h5 h6 h7 h8 h9 ih =>
    exact Aug.step u k v w
      (by rw [hAug u k (Aug.step u k v w h1 h2 h3 h4 h5 h6 h7 h8 h9)]; exact h1)
      h2 h3 h4 h5 h6 h7 (by rw [hAug w (k + 1) h9]; exact h8) ih

/-! ## C1 machinery: BFS initialisation -/

lemma bfsInitDist_entry (ml : List Int) (z : Nat) :
    (bfsInitDist ml).getD z none = none ∨
      ((bfsInitDist ml).getD z none = some 0 ∧ z < ml.length ∧ ml.getD z (-1) = -1) := by
  unfold bfsInitDist
  by_cases hz : z < ml.length
  · rw [List.getD_append _ _ _ _ (by simpa using hz)]
    have hg : (List.map (fun m => if m = -1 then (some 0 : Option Nat) else none) ml).getD
          z none =
        (fun m => if m = -1 then (some 0 : Option Nat) else none) (ml.getD z (-1)) := by
      rw [List.getD_eq_getElem?_getD, List.getElem?_map _ _ z, List.getElem?_eq_getElem hz]
      simp only [Option.map_some', Option.getD_some]
      rw [List.getD_eq_getElem?_getD, List.getElem?_eq_getElem hz]
      rfl
    rw [hg]
    by_cases hf : ml.getD z (-1) = -1
    · right
      refine ⟨?_, hz, hf⟩
      show (if ml.getD z (-1) = -1 then (some 0 : Option Nat) else none) = some 0
      rw [if_pos hf]
    · left
      show (if ml.getD z (-1) = -1 then (some 0 : Option Nat) else none) = none
      rw [if_neg hf]
  · left
    rw [List.getD_append_right _ _ _ _ (by simpa using Nat.le_of_not_lt hz)]
    have hsingle : ∀ i, ([none] : List (Option Nat)).getD i none = none := by
      intro i
      cases i <;> rfl
    exact hsingle _

lemma bfsInitQueue_mem (ml : List Int) (u : Nat) :
    u ∈ bfsInitQueue ml ↔ u < ml.length ∧ ml.getD u 0 = -1 := by
  unfold bfsInitQueue
  simp [List.mem_filter, List.mem_range]

lemma bfsInitQueue_length (ml : List Int) : (bfsInitQueue ml).length ≤ ml.length := by
  unfold bfsInitQueue
  calc (List.filter _ (List.range ml.length)).length ≤ (List.range ml.length).length :=
        List.length_filter_le _ _
    _ = ml.length := List.length_range _

/-! ## C1 machinery: the BFS scan, entry by entry -/

lemma bfsScanGo_entry (rs : Int) (L : Nat) (mr : List Int) (u : Nat) :
    ∀ (l : List Int) (dist : List (Option Nat)) (app : List Nat) (k : Nat),
      dist.getD u none = some k →
      ∀ z, ((bfsScanGo rs L mr u l dist app).1).getD z none = dist.getD z none ∨
        (dist.getD z none = none ∧
          ((bfsScanGo rs L mr u l dist app).1).getD z none = some (k + 1) ∧
          ∃ v : Int, v ∈ l ∧ 0 ≤ v ∧ v < rs ∧ tgtOf L (mr.getD v.toNat 0) = z) := by
  intro l
  induction l with
  | nil => intro dist app k hu z; left; rfl
  | cons v vs ih =>
    intro dist app k hu z
    simp only [bfsScanGo]
    split
    · rcases ih dist app k hu z with h | ⟨h1, h2, w, hw1, hw2, hw3, hw4⟩
      · left; exact h
      · right; exact ⟨h1, h2, w, List.mem_cons_of_mem _ hw1, hw2, hw3, hw4⟩
    · rename_i hvr
      have hv0 : 0 ≤ v := le_of_not_lt (fun hc => hvr (Or.inl hc))
      have hvR : v < rs := lt_of_not_le (fun hc => hvr (Or.inr hc))
      split
      · rename_i hnone
        have htu : tgtOf L (mr.getD v.toNat 0) ≠ u := by
          intro hc
          rw [hc, hu] at hnone
          cases hnone
        have hu' : (dist.set (tgtOf L (mr.getD v.toNat 0))
            (oAdd1 (dist.getD u none))).getD u none = some k := by
          rw [getD_set_ne _ _ _ htu]
          exact hu
        have key : ∀ app₂ : List Nat,
            ((bfsScanGo rs L mr u vs (dist.set (tgtOf L (mr.getD v.toNat 0))
                (oAdd1 (dist.getD u none))) app₂).1).getD z none = dist.getD z none ∨
            (dist.getD z none = none ∧
              ((bfsScanGo rs L mr u vs (dist.set (tgtOf L (mr.getD v.toNat 0))
                (oAdd1 (dist.getD u none))) app₂).1).getD z none = some (k + 1) ∧
              ∃ w : Int, w ∈ v :: vs ∧ 0 ≤ w ∧ w < rs ∧ tgtOf L (mr.getD w.toNat 0) = z) := by
          intro app₂
          rcases ih _ app₂ k hu' z with h | ⟨h1, h2, w, hw1, hw2, hw3, hw4⟩
          · by_cases hzt : z = tgtOf L (mr.getD v.toNat 0)
            · subst hzt
              by_cases hlt : tgtOf L (mr.getD v.toNat 0) < dist.length
              · right
                refine ⟨hnone, ?_, v, List.mem_cons_self _ _, hv0, hvR, rfl⟩
                rw [h, getD_set_self _ _ _ _ hlt, hu]
                rfl
              · left
                rw [h, List.set_eq_of_length_le (Nat.le_of_not_lt hlt)]
            · left
              rw [h, getD_set_ne _ _ _ (fun hc => hzt hc.symm)]
          · by_cases hzt : z = tgtOf L (mr.getD v.toNat 0)
            · subst hzt
              right
              exact ⟨hnone, h2, v, List.mem_cons_self _ _, hv0, hvR, rfl⟩
            · right
              rw [getD_set_ne _ _ _ (fun hc => hzt hc.symm)] at h1
              exact ⟨h1, h2, w, List.mem_cons_of_mem _ hw1, hw2, hw3, hw4⟩
        split
        · exact key app
        · exact key (app ++ [(mr.getD v.toNat 0).toNat])
      · rcases ih dist app k hu z with h | ⟨h1, h2, w, hw1, hw2, hw3, hw4⟩
        · left; exact h
        · right; exact ⟨h1, h2, w, List.mem_cons_of_mem _ hw1, hw2, hw3, hw4⟩

lemma bfsScanGo_expanded (rs : Int) (L : Nat) (mr : List Int) (u : Nat)
    (hmrv : ∀ v : Int, 0 ≤ v → v < rs → mr.getD v.toNat 0 = -1 ∨
      (0 ≤ mr.getD v.toNat 0 ∧ (mr.getD v.toNat 0).toNat < L)) :
    ∀ (l : List Int) (dist : List (Option Nat)) (app : List Nat) (k : Nat),
      dist.getD u none = some k → dist.length = L + 1 →
      ∀ v : Int, v ∈ l → 0 ≤ v → v < rs →
        ((bfsScanGo rs L mr u l dist app).1).getD (tgtOf L (mr.getD v.toNat 0)) none ≠
          none := by
  intro l
  induction l with
  | nil => intro dist app k hu hlen v hv h0 hR; cases hv
  | cons v₁ vs ih =>
    intro dist app k hu hlen v hv h0 hR
    by_cases hv₁r : v₁ < 0 ∨ rs ≤ v₁
    · simp only [bfsScanGo, if_pos hv₁r]
      rcases List.mem_cons.mp hv with rfl | hvs
      · exact absurd hv₁r (by omega)
      · exact ih dist app k hu hlen v hvs h0 hR
    · have hv₁0 : 0 ≤ v₁ := le_of_not_lt (fun hc => hv₁r (Or.inl hc))
      have hv₁R : v₁ < rs := lt_of_not_le (fun hc => hv₁r (Or.inr hc))
      by_cases hnone : dist.getD (tgtOf L (mr.getD v₁.toNat 0)) none = none
      · have htu : tgtOf L (mr.getD v₁.toNat 0) ≠ u := by
          intro hc
          rw [hc, hu] at hnone
          cases hnone
        have htlt : tgtOf L (mr.getD v₁.toNat 0) < dist.length := by
          rcases hmrv v₁ hv₁0 hv₁R with h1 | ⟨h1, h2⟩
          · unfold tgtOf; rw [if_pos h1]; omega
          · unfold tgtOf; rw [if_neg (by omega)]; omega
        have hu' : (dist.set (tgtOf L (mr.getD v₁.toNat 0))
            (oAdd1 (dist.getD u none))).getD u none = some k := by
          rw [getD_set_ne _ _ _ htu]
          exact hu
        have hlen' : (dist.set (tgtOf L (mr.getD v₁.toNat 0))
            (oAdd1 (dist.getD u none))).length = L + 1 := by
          rw [List.length_set]; exact hlen
        have hset : (dist.set (tgtOf L (mr.getD v₁.toNat 0))
            (oAdd1 (dist.getD u none))).getD (tgtOf L (mr.getD v₁.toNat 0)) none =
            some (k + 1) := by
          rw [getD_set_self _ _ _ _ htlt, hu]
          rfl
        have key : ∀ app₂ : List Nat,
            ((bfsScanGo rs L mr u vs (dist.set (tgtOf L (mr.getD v₁.toNat 0))
              (oAdd1 (dist.getD u none))) app₂).1).getD (tgtOf L (mr.getD v.toNat 0))
              none ≠ none := by
          intro app₂
          rcases List.mem_cons.mp hv with rfl | hvs
          · exact bfsScanGo_nonone _ _ _ _ _ _ _ _ (by rw [hset]; simp)
          · exact ih _ app₂ k hu' hlen' v hvs h0 hR
        by_cases hm1 : mr.getD v₁.toNat 0 = -1
        · simp only [bfsScanGo, if_neg hv₁r, if_pos hnone, if_pos hm1]
          exact key app
        · simp only [bfsScanGo, if_neg hv₁r, if_pos hnone, if_neg hm1]
          exact key _
      · rcases List.mem_cons.mp hv with rfl | hvs
        · simp only [bfsScanGo, if_neg hv₁r, if_neg hnone]
          exact bfsScanGo_nonone _ _ _ _ _ _ _ _ hnone
        · simp only [bfsScanGo, if_neg hv₁r, if_neg hnone]
          exact ih dist app k hu hlen v hvs h0 hR

lemma bfsScanGo_app_mono (rs : Int) (L : Nat) (mr : List Int) (u : Nat) :
    ∀ (l : List Int) (dist : List (Option Nat)) (app : List Nat) (w : Nat),
      w ∈ app → w ∈ (bfsScanGo rs L mr u l dist app).2 := by
  intro l
  induction l with
  | nil => intro dist app w hw; exact hw
  | cons v vs ih =>
    intro dist app w hw
    simp only [bfsScanGo]
    split
    · exact ih dist app w hw
    · split
      · split
        · exact ih _ app w hw
        · exact ih _ _ w (List.mem_append_left _ hw)
      · exact ih dist app w hw

lemma bfsScanGo_append (rs : Int) (L : Nat) (mr : List Int) (u : Nat)
    (hmrv : ∀ v : Int, 0 ≤ v → v < rs → mr.getD v.toNat 0 = -1 ∨
      (0 ≤ mr.getD v.toNat 0 ∧ (mr.getD v.toNat 0).toNat < L)) :
    ∀ (l : List Int) (dist : List (Option Nat)) (app : List Nat) (k : Nat),
      dist.getD u none = some k → dist.length = L + 1 →
      ∀ w ∈ (bfsScanGo rs L mr u l dist app).2,
        w ∈ app ∨ (w < L ∧ ((bfsScanGo rs L mr u l dist app).1).getD w none ≠ none) := by
  intro l
  induction l with
  | nil => intro dist app k hu hlen w hw; exact Or.inl hw
  | cons v vs ih =>
    intro dist app k hu hlen w hw
    by_cases hvr : v < 0 ∨ rs ≤ v
    · simp only [bfsScanGo, if_pos hvr] at hw ⊢
      exact ih dist app k hu hlen w hw
    · have hv0 : 0 ≤ v := le_of_not_lt (fun hc => hvr (Or.inl hc))
      have hvR : v < rs := lt_of_not_le (fun hc => hvr (Or.inr hc))
      by_cases hnone : dist.getD (tgtOf L (mr.getD v.toNat 0)) none = none
      · have htu : tgtOf L (mr.getD v.toNat 0) ≠ u := by
          intro hc
          rw [hc, hu] at hnone
          cases hnone
        have htlt : tgtOf L (mr.getD v.toNat 0) < dist.length := by
          rcases hmrv v hv0 hvR with h1 | ⟨h1, h2⟩
          · unfold tgtOf; rw [if_pos h1]; omega
          · unfold tgtOf; rw [if_neg (by omega)]; omega
        have hu' : (dist.set (tgtOf L (mr.getD v.toNat 0))
            (oAdd1 (dist.getD u none))).getD u none = some k := by
          rw [getD_set_ne _ _ _ htu]
          exact hu
        have hlen' : (dist.set (tgtOf L (mr.getD v.toNat 0))
            (oAdd1 (dist.getD u none))).length = L + 1 := by
          rw [List.length_set]; exact hlen
        have hset : (dist.set (tgtOf L (mr.getD v.toNat 0))
            (oAdd1 (dist.getD u none))).getD (tgtOf L (mr.getD v.toNat 0)) none =
            some (k + 1) := by
          rw [getD_set_self _ _ _ _ htlt, hu]
          rfl
        by_cases hm1 : mr.getD v.toNat 0 = -1
        · simp only [bfsScanGo, if_neg hvr, if_pos hnone, if_pos hm1] at hw ⊢
          exact ih _ app k hu' hlen' w hw
        · simp only [bfsScanGo, if_neg hvr, if_pos hnone, if_neg hm1] at hw ⊢
          rcases ih _ _ k hu' hlen' w hw with hw' | hres
          · rcases List.mem_append.mp hw' with h | h
            · exact Or.inl h
            · have hwt : w = (mr.getD v.toNat 0).toNat := by simpa using h
              right
              constructor
              · rcases hmrv v hv0 hvR with h1 | ⟨h1, h2⟩
                · exact absurd h1 hm1
                · rw [hwt]; exact h2
              · rw [hwt]
                apply bfsScanGo_nonone
                rw [show (mr.getD v.toNat 0).toNat = tgtOf L (mr.getD v.toNat 0) from by
                  unfold tgtOf; rw [if_neg hm1]]
                rw [hset]
                simp
          · exact Or.inr hres
      · simp only [bfsScanGo, if_neg hvr, if_neg hnone] at hw ⊢
        exact ih dist app k hu hlen w hw

lemma bfsScanGo_new (rs : Int) (L : Nat) (mr : List Int) (u : Nat) :
    ∀ (l : List Int) (dist : List (Option Nat)) (app : List Nat) (k : Nat),
      dist.getD u none = some k →
      ∀ z, z ≠ L → dist.getD z none = none →
        ((bfsScanGo rs L mr u l dist app).1).getD z none ≠ none →
        z ∈ (bfsScanGo rs L mr u l dist app).2 := by
  intro l
  induction l with
  | nil => intro dist app k hu z hzL hz hres; exact absurd hz hres
  | cons v vs ih =>
    intro dist app k hu z hzL hz hres
    by_cases hvr : v < 0 ∨ rs ≤ v
    · simp only [bfsScanGo, if_pos hvr] at hres ⊢
      exact ih dist app k hu z hzL hz hres
    · by_cases hnone : dist.getD (tgtOf L (mr.getD v.toNat 0)) none = none
      · have htu : tgtOf L (mr.getD v.toNat 0) ≠ u := by
          intro hc
          rw [hc, hu] at hnone
          cases hnone
        have hu' : (dist.set (tgtOf L (mr.getD v.toNat 0))
            (oAdd1 (dist.getD u none))).getD u none = some k := by
          rw [getD_set_ne _ _ _ htu]
          exact hu
        by_cases hm1 : mr.getD v.toNat 0 = -1
        · simp only [bfsScanGo, if_neg hvr, if_pos hnone, if_pos hm1] at hres ⊢
          have hzt : z ≠ tgtOf L (mr.getD v.toNat 0) := by
            unfold tgtOf
            rw [if_pos hm1]
            exact hzL
          have hz' : (dist.set (tgtOf L (mr.getD v.toNat 0))
              (oAdd1 (dist.getD u none))).getD z none = none := by
            rw [getD_set_ne _ _ _ (fun hc => hzt hc.symm)]
            exact hz
          exact ih _ app k hu' z hzL hz' hres
        · simp only [bfsScanGo, if_neg hvr, if_pos hnone, if_neg hm1] at hres ⊢
          by_cases hzt : z = tgtOf L (mr.getD v.toNat 0)
          · apply bfsScanGo_app_mono
            rw [hzt, show tgtOf L (mr.getD v.toNat 0) = (mr.getD v.toNat 0).toNat from by
              unfold tgtOf; rw [if_neg hm1]]
            exact List.mem_append_right _ (by simp)
          · have hz' : (dist.set (tgtOf L (mr.getD v.toNat 0))
                (oAdd1 (dist.getD u none))).getD z none = none := by
              rw [getD_set_ne _ _ _ (fun hc => hzt hc.symm)]
              exact hz
            exact ih _ _ k hu' z hzL hz' hres
      · simp only [bfsScanGo, if_neg hvr, if_neg hnone] at hres ⊢
        exact ih dist app k hu z hzL hz hres

lemma bfsScanGo_measure (rs : Int) (L : Nat) (mr : List Int) (u : Nat)
    (hmrv : ∀ v : Int, 0 ≤ v → v < rs → mr.getD v.toNat 0 = -1 ∨
      (0 ≤ mr.getD v.toNat 0 ∧ (mr.getD v.toNat 0).toNat < L)) :
    ∀ (l : List Int) (dist : List (Option Nat)) (app : List Nat) (k : Nat),
      dist.getD u none = some k → dist.length = L + 1 →
      noneCount ((bfsScanGo rs L mr u l dist app).1) +
          ((bfsScanGo rs L mr u l dist app).2).length ≤
        noneCount dist + app.length := by
  intro l
  induction l with
  | nil => intro dist app k hu hlen; exact le_refl _
  | cons v vs ih =>
    intro dist app k hu hlen
    by_cases hvr : v < 0 ∨ rs ≤ v
    · simp only [bfsScanGo, if_pos hvr]
      exact ih dist app k hu hlen
    · have hv0 : 0 ≤ v := le_of_not_lt (fun hc => hvr (Or.inl hc))
      have hvR : v < rs := lt_of_not_le (fun hc => hvr (Or.inr hc))
      by_cases hnone : dist.getD (tgtOf L (mr.getD v.toNat 0)) none = none
      · have htu : tgtOf L (mr.getD v.toNat 0) ≠ u := by
          intro hc
          rw [hc, hu] at hnone
          cases hnone
        have htlt : tgtOf L (mr.getD v.toNat 0) < dist.length := by
          rcases hmrv v hv0 hvR with h1 | ⟨h1, h2⟩
          · unfold tgtOf; rw [if_pos h1]; omega
          · unfold tgtOf; rw [if_neg (by omega)]; omega
        have hu' : (dist.set (tgtOf L (mr.getD v.toNat 0))
            (oAdd1 (dist.getD u none))).getD u none = some k := by
          rw [getD_set_ne _ _ _ htu]
          exact hu
        have hlen' : (dist.set (tgtOf L (mr.getD v.toNat 0))
            (oAdd1 (dist.getD u none))).length = L + 1 := by
          rw [List.length_set]; exact hlen
        have hval : oAdd1 (dist.getD u none) = some (k + 1) := by rw [hu]; rfl
        have hcount := noneCount_set_some dist (tgtOf L (mr.getD v.toNat 0)) (k + 1)
          htlt hnone
        rw [← hval] at hcount
        by_cases hm1 : mr.getD v.toNat 0 = -1
        · simp only [bfsScanGo, if_neg hvr, if_pos hnone, if_pos hm1]
          have hih := ih _ app k hu' hlen'
          omega
        · simp only [bfsScanGo, if_neg hvr, if_pos hnone, if_neg hm1]
          have hih := ih _ (app ++ [(mr.getD v.toNat 0).toNat]) k hu' hlen'
          rw [List.length_append] at hih
          simp only [List.length_singleton] at hih
          omega
      · simp only [bfsScanGo, if_neg hvr, if_neg hnone]
        exact ih dist app k hu hlen

/-! ## C1 machinery: BFS queue-loop invariants -/

lemma bfsLoopF_PZ (g : BipartiteGraph) (mr ml : List Int)
    (hmrv : ∀ v : Int, 0 ≤ v → v < g.rightSize → mr.getD v.toNat 0 = -1 ∨
      (0 ≤ mr.getD v.toNat 0 ∧ (mr.getD v.toNat 0).toNat < g.L)) :
    ∀ (fuel : Nat) (dist : List (Option Nat)) (q : List Nat),
      dist.length = g.L + 1 → (∀ u ∈ q, u < g.L) →
      ZeroFree ml dist → ParentOK g mr dist →
      ZeroFree ml (bfsLoopF g mr fuel dist q) ∧
        ParentOK g mr (bfsLoopF g mr fuel dist q) := by
  intro fuel
  induction fuel with
  | zero => intro dist q _ _ hZ hP; exact ⟨hZ, hP⟩
  | succ fuel ih =>
    intro dist q hlen hqlt hZ hP
    cases q with
    | nil => exact ⟨hZ, hP⟩
    | cons w qs =>
      by_cases hcond : oLt (dist.getD w none) (dist.getD g.L none) = true
      · obtain ⟨k, hk⟩ := oLt_some _ _ hcond
        simp only [bfsLoopF, if_pos hcond]
        have hwL : w < g.L := hqlt w (List.mem_cons_self _ _)
        apply ih
        · rw [bfsScanGo_length]; exact hlen
        · intro u hu
          rcases List.mem_append.mp hu with h | h
          · exact hqlt u (List.mem_cons_of_mem _ h)
          · rcases bfsScanGo_append g.rightSize g.L mr w hmrv (adj g w) dist [] k hk hlen
                u h with h' | ⟨h1, _⟩
            · cases h'
            · exact h1
        · intro z hz
          rcases bfsScanGo_entry g.rightSize g.L mr w (adj g w) dist [] k hk z
              with h | ⟨h1, h2, _⟩
          · rw [h] at hz
            exact hZ z hz
          · rw [hz] at h2
            exact absurd (Option.some.inj h2) (by omega)
        · intro z j hz
          rcases bfsScanGo_entry g.rightSize g.L mr w (adj g w) dist [] k hk z
              with h | ⟨h1, h2, v, hv1, hv2, hv3, hv4⟩
          · rw [h] at hz
            obtain ⟨u', v', hu'1, hu'2, hv'1, hv'2, hv'3, hv'4⟩ := hP z j hz
            refine ⟨u', v', hu'1, ?_, hv'1, hv'2, hv'3, hv'4⟩
            exact bfsScanGo_finite_persist _ _ _ _ _ _ _ u' j hu'2
          · rw [hz] at h2
            have hjk : j = k := by
              have := Option.some.inj h2
              omega
            subst hjk
            refine ⟨w, v, hwL, ?_, hv2, hv3, hv1, hv4⟩
            exact bfsScanGo_finite_persist _ _ _ _ _ _ _ w j hk
      · simp only [bfsLoopF, if_neg hcond]
        exact ih dist qs hlen (fun u hu => hqlt u (List.mem_cons_of_mem _ hu)) hZ hP

lemma bfsLoopF_expand (g : BipartiteGraph) (mr : List Int)
    (hmrv : ∀ v : Int, 0 ≤ v → v < g.rightSize → mr.getD v.toNat 0 = -1 ∨
      (0 ≤ mr.getD v.toNat 0 ∧ (mr.getD v.toNat 0).toNat < g.L)) :
    ∀ (fuel : Nat) (dist : List (Option Nat)) (q : List Nat),
      dist.length = g.L + 1 →
      noneCount dist + q.length ≤ fuel →
      (∀ u ∈ q, dist.getD u none ≠ none) →
      (∀ u ∈ q, u < g.L) →
      (∀ u, u < g.L → dist.getD u none ≠ none → u ∈ q ∨ Expanded g mr dist u) →
      (bfsLoopF g mr fuel dist q).getD g.L none = none →
      ∀ u, u < g.L → (bfsLoopF g mr fuel dist q).getD u none ≠ none →
        Expanded g mr (bfsLoopF g mr fuel dist q) u := by
  intro fuel
  induction fuel with
  | zero =>
    intro dist q hlen hmeas hqlab hqlt hinv hsink u hu hulab
    have hq : q = [] := List.length_eq_zero.mp (by omega)
    subst hq
    simp only [bfsLoopF] at hsink hulab ⊢
    rcases hinv u hu hulab with h | h
    · cases h
    · exact h
  | succ fuel ih =>
    intro dist q hlen hmeas hqlab hqlt hinv hsink u hu hulab
    cases q with
    | nil =>
      simp only [bfsLoopF] at hsink hulab ⊢
      rcases hinv u hu hulab with h | h
      · cases h
      · exact h
    | cons w qs =>
      have hsink0 : dist.getD g.L none = none := by
        rcases hx : dist.getD g.L none with _ | x
        · rfl
        · exfalso
          have hpp := bfsLoopF_finite_persist g mr (fuel + 1) dist (w :: qs) g.L x hx
          rw [hpp] at hsink
          cases hsink
      have hwlab := hqlab w (List.mem_cons_self _ _)
      rcases hwx : dist.getD w none with _ | k
      · exact absurd hwx hwlab
      have hcond : oLt (dist.getD w none) (dist.getD g.L none) = true := by
        rw [hwx, hsink0]
        rfl
      simp only [bfsLoopF, if_pos hcond] at hsink hulab ⊢
      have hmeasS := bfsScanGo_measure g.rightSize g.L mr w hmrv (adj g w) dist [] k hwx hlen
      have hlenS : ((bfsScanGo g.rightSize g.L mr w (adj g w) dist []).1).length =
          g.L + 1 := by
        rw [bfsScanGo_length]; exact hlen
      refine ih _ _ hlenS ?_ ?_ ?_ ?_ hsink u hu hulab
      · rw [List.length_append]
        simp only [List.length_nil] at hmeasS
        simp only [List.length_cons] at hmeas
        omega
      · intro u' hu'
        rcases List.mem_append.mp hu' with h | h
        · exact bfsScanGo_nonone _ _ _ _ _ _ _ _ (hqlab u' (List.mem_cons_of_mem _ h))
        · rcases bfsScanGo_append g.rightSize g.L mr w hmrv (adj g w) dist [] k hwx hlen
              u' h with h' | ⟨_, h2⟩
          · cases h'
          · exact h2
      · intro u' hu'
        rcases List.mem_append.mp hu' with h | h
        · exact hqlt u' (List.mem_cons_of_mem _ h)
        · rcases bfsScanGo_append g.rightSize g.L mr w hmrv (adj g w) dist [] k hwx hlen
              u' h with h' | ⟨h1, _⟩
          · cases h'
          · exact h1
      · intro u' hu'L hu'lab
        by_cases hold : dist.getD u' none = none
        · left
          apply List.mem_append_right
          exact bfsScanGo_new g.rightSize g.L mr w (adj g w) dist [] k hwx u'
            (by omega) hold hu'lab
        · rcases hinv u' hu'L hold with hmem | hexp
          · rcases List.mem_cons.mp hmem with rfl | h
            · right
              intro v hv h0 hR
              exact bfsScanGo_expanded g.rightSize g.L mr u' hmrv (adj g u') dist [] k
                hwx hlen v hv h0 hR
            · exact Or.inl (List.mem_append_left _ h)
          · right
            exact expanded_mono g mr dist _ u' hexp
              (fun z hz => bfsScanGo_nonone _ _ _ _ _ _ _ _ hz)

/-! ## C1 machinery: facts about one full `bfs` run -/

lemma mrrange_hmrv (g : BipartiteGraph) (mr : List Int) (hlenR : mr.length = g.Rn)
    (hmr : MRRange g mr) :
    ∀ v : Int, 0 ≤ v → v < g.rightSize → mr.getD v.toNat 0 = -1 ∨
      (0 ≤ mr.getD v.toNat 0 ∧ (mr.getD v.toNat 0).toNat < g.L) := by
  intro v h0 hR
  have hvlen : v.toNat < mr.length := by
    have hrn : g.Rn = g.rightSize.toNat := rfl
    omega
  have hd : mr.getD v.toNat (-1) = mr.getD v.toNat 0 := getD_congr _ _ _ _ hvlen
  rcases hmr v.toNat hvlen with h | ⟨h1, h2⟩
  · left; rw [← hd]; exact h
  · right
    rw [hd] at h1 h2
    have hld : g.L = g.leftSize.toNat := rfl
    exact ⟨h1, by omega⟩

lemma bfsDist_expand (g : BipartiteGraph) (ml mr : List Int)
    (hlenL : ml.length = g.L) (hlenR : mr.length = g.Rn) (hmr : MRRange g mr)
    (hsink : (bfsDist g ml mr).getD g.L none = none) :
    ∀ u, u < g.L → (bfsDist g ml mr).getD u none ≠ none →
      Expanded g mr (bfsDist g ml mr) u := by
  have hmrv := mrrange_hmrv g mr hlenR hmr
  unfold bfsDist at hsink ⊢
  refine bfsLoopF_expand g mr hmrv (2 * g.L + 2) (bfsInitDist ml) (bfsInitQueue ml)
    ?_ ?_ ?_ ?_ ?_ hsink
  · rw [bfsInitDist_length, hlenL]
  · have h1 := noneCount_le (bfsInitDist ml)
    rw [bfsInitDist_length, hlenL] at h1
    have h2 := bfsInitQueue_length ml
    omega
  · intro u hu
    obtain ⟨h1, h2⟩ := (bfsInitQueue_mem ml u).mp hu
    have hfree : ml.getD u (-1) = -1 := by
      rw [getD_congr _ _ _ _ h1]
      exact h2
    rw [bfsInitDist_free ml u h1 hfree]
    simp
  · intro u hu
    obtain ⟨h1, _⟩ := (bfsInitQueue_mem ml u).mp hu
    omega
  · intro u huL hulab
    rcases bfsInitDist_entry ml u with h | ⟨h1, h2, h3⟩
    · exact absurd h hulab
    · left
      refine (bfsInitQueue_mem ml u).mpr ⟨h2, ?_⟩
      rw [← getD_congr ml u (-1) 0 h2]
      exact h3

lemma bfsDist_PZ (g : BipartiteGraph) (ml mr : List Int)
    (hlenL : ml.length = g.L) (hlenR : mr.length = g.Rn) (hmr : MRRange g mr) :
    ZeroFree ml (bfsDist g ml mr) ∧ ParentOK g mr (bfsDist g ml mr) := by
  have hmrv := mrrange_hmrv g mr hlenR hmr
  unfold bfsDist
  refine bfsLoopF_PZ g mr ml hmrv (2 * g.L + 2) (bfsInitDist ml) (bfsInitQueue ml)
    ?_ ?_ ?_ ?_
  · rw [bfsInitDist_length, hlenL]
  · intro u hu
    obtain ⟨h1, _⟩ := (bfsInitQueue_mem ml u).mp hu
    omega
  · intro z hz
    rcases bfsInitDist_entry ml z with h | ⟨h1, h2, h3⟩
    · rw [h] at hz; cases hz
    · exact ⟨h2, h3⟩
  · intro z j hz
    rcases bfsInitDist_entry ml z with h | ⟨h1, _, _⟩
    · rw [h] at hz; cases hz
    · rw [h1] at hz
      exact absurd (Option.some.inj hz) (by omega)

lemma parentok_chain (g : BipartiteGraph) (mr : List Int) (dist : List (Option Nat))
    (hp : ParentOK g mr dist) :
    ∀ (j u : Nat), u < g.L → dist.getD u none = some j →
      ∃ T : Finset Nat, T ⊆ Finset.range g.L ∧ T.card = j + 1 ∧
        ∀ i ∈ T, ∃ m, m ≤ j ∧ dist.getD i none = some m := by
  intro j
  induction j with
  | zero =>
    intro u hu hl
    refine ⟨{u}, ?_, Finset.card_singleton u, ?_⟩
    · simp [Finset.singleton_subset_iff, Finset.mem_range, hu]
    · intro i hi
      rw [Finset.mem_singleton] at hi
      subst hi
      exact ⟨0, le_refl _, hl⟩
  | succ j ihj =>
    intro u hu hl
    obtain ⟨u', v, hu', hl', _⟩ := hp u j hl
    obtain ⟨T, hT1, hT2, hT3⟩ := ihj u' hu' hl'
    have hnotmem : u ∉ T := by
      intro hc
      obtain ⟨m, hm, hml⟩ := hT3 u hc
      rw [hl] at hml
      exact absurd (Option.some.inj hml) (by omega)
    refine ⟨insert u T, Finset.insert_subset (Finset.mem_range.mpr hu) hT1, ?_, ?_⟩
    · rw [Finset.card_insert_of_not_mem hnotmem, hT2]
    · intro i hi
      rcases Finset.mem_insert.mp hi with rfl | hi'
      · exact ⟨j + 1, le_refl _, hl⟩
      · obtain ⟨m, hm, h⟩ := hT3 i hi'
        exact ⟨m, by omega, h⟩

lemma parentok_label_le (g : BipartiteGraph) (mr : List Int) (dist : List (Option Nat))
    (hp : ParentOK g mr dist) :
    ∀ (z j : Nat), z < g.L → dist.getD z none = some j → j ≤ g.L := by
  intro z j hz hl
  obtain ⟨T, hT1, hT2, _⟩ := parentok_chain g mr dist hp j z hz hl
  have hcard := Finset.card_le_card hT1
  rw [hT2, Finset.card_range] at hcard
  omega

lemma aug_exists (g : BipartiteGraph) (ml mr : List Int) (dist : List (Option Nat))
    (hlenL : ml.length = g.L) (hlenR : mr.length = g.Rn)
    (hmr : MRRange g mr) (hZ : ZeroFree ml dist) (hP : ParentOK g mr dist)
    (m : Nat) (hsink : dist.getD g.L none = some m) :
    ∃ u₀, u₀ < g.L ∧ ml.getD u₀ (-1) = -1 ∧ Aug g mr dist u₀ 0 := by
  have descent : ∀ (k u' : Nat), u' < g.L → dist.getD u' none = some k →
      Aug g mr dist u' k → ∃ u₀, u₀ < g.L ∧ ml.getD u₀ (-1) = -1 ∧
        Aug g mr dist u₀ 0 := by
    intro k
    induction k with
    | zero =>
      intro u' hu' hl hA
      obtain ⟨h1, h2⟩ := hZ u' hl
      exact ⟨u', hu', h2, hA⟩
    | succ k ihk =>
      intro u' hu' hl hA
      obtain ⟨u'', v, hu'', hl'', hv0, hvR, hvadj, htgt⟩ := hP u' k hl
      have hm1 : mr.getD v.toNat 0 ≠ -1 := by
        intro hc
        unfold tgtOf at htgt
        rw [if_pos hc] at htgt
        omega
      have hcast : mr.getD v.toNat 0 = (u' : Int) := by
        unfold tgtOf at htgt
        rw [if_neg hm1] at htgt
        have hvlen : v.toNat < mr.length := by
          have hrn : g.Rn = g.rightSize.toNat := rfl
          omega
        have hd : mr.getD v.toNat (-1) = mr.getD v.toNat 0 := getD_congr _ _ _ _ hvlen
        rcases hmr v.toNat hvlen with h | ⟨h1, _⟩
        · rw [hd] at h; exact absurd h hm1
        · rw [hd] at h1
          omega
      have hstep : Aug g mr dist u'' k :=
        Aug.step u'' k v u' hl'' hu'' hv0 hvR hvadj hcast (by omega) hl hA
      exact ihk u'' hu'' hl'' hstep
  rcases m with _ | m'
  · obtain ⟨h1, _⟩ := hZ g.L hsink
    exact absurd h1 (by omega)
  · obtain ⟨u₁, v, hu₁, hl₁, hv0, hvR, hvadj, htgt⟩ := hP g.L m' hsink
    have hm1 : mr.getD v.toNat 0 = -1 := by
      by_contra hc
      unfold tgtOf at htgt
      rw [if_neg hc] at htgt
      have hvlen : v.toNat < mr.length := by
        have hrn : g.Rn = g.rightSize.toNat := rfl
        omega
      have hd : mr.getD v.toNat (-1) = mr.getD v.toNat 0 := getD_congr _ _ _ _ hvlen
      rcases hmr v.toNat hvlen with h | ⟨h1, h2⟩
      · rw [hd] at h; exact hc h
      · rw [hd] at h1 h2
        have hld : g.L = g.leftSize.toNat := rfl
        omega
    have hfree : Aug g mr dist u₁ m' :=
      Aug.free u₁ m' v hl₁ hu₁ hv0 hvR hvadj hm1 hsink
    exact descent m' u₁ hu₁ hl₁ hfree

/-! ## C1 machinery: DFS helpers -/

lemma distCheck_intro (dist : List (Option Nat)) (next : Int) (k : Nat)
    (h0 : 0 ≤ next) (hlt : next.toNat < dist.length)
    (hval : dist.getD next.toNat none = some (k + 1)) :
    distCheck dist next (some k) = true := by
  unfold distCheck
  rw [if_pos ⟨h0, hlt⟩, hval]
  simp [oAdd1, oEq]

lemma dfs_sink (g : BipartiteGraph) (f u : Nat) (t : HKState) (hu : u ≠ g.L)
    (hlenR : t.matchRight.length = g.Rn) (hmr : MRRange g t.matchRight) :
    ((dfsF g f u t).2).dist.getD g.L none = t.dist.getD g.L none := by
  by_contra hch
  rcases dfs_dist_changed g f u t g.L hlenR hch with h | ⟨i, hi, hval⟩
  · exact hu h.symm
  · have hi' : i < t.matchRight.length := by rw [hlenR]; exact hi
    have hd : t.matchRight.getD i (-1) = t.matchRight.getD i 0 := getD_congr _ _ _ _ hi'
    rcases hmr i hi' with h1 | ⟨h2, h3⟩
    · rw [hd, hval] at h1
      omega
    · rw [hd, hval] at h2 h3
      have hld : g.L = g.leftSize.toNat := rfl
      omega

lemma dfs_keep_lower (g : BipartiteGraph) (f w : Nat) (t : HKState) (z : Nat) (k j : Nat)
    (hw : t.dist.getD w none = some k) (hz : t.dist.getD z none = some j) (hjk : j < k) :
    ((dfsF g f w t).2).dist.getD z none = some j := by
  by_cases hch : ((dfsF g f w t).2).dist.getD z none = t.dist.getD z none
  · rw [hch]; exact hz
  · exfalso
    obtain ⟨k', j', h1, h2, h3, _⟩ := dfs_marks g f w t z hch
    rw [hw] at h1
    rw [hz] at h2
    have e1 := Option.some.inj h1
    have e2 := Option.some.inj h2
    omega

lemma dfs_nochange (g : BipartiteGraph) (f u : Nat) (t : HKState) (z : Nat)
    (hu : t.dist.getD u none = none) :
    ((dfsF g f u t).2).dist.getD z none = t.dist.getD z none := by
  by_contra hch
  obtain ⟨k', j', h1, _, _, _⟩ := dfs_marks g f u t z hch
  rw [hu] at h1
  cases h1

lemma dfs_none_false (g : BipartiteGraph) :
    ∀ (f u : Nat) (t : HKState), t.dist.getD u none = none →
      (∃ m, t.dist.getD g.L none = some m) → (dfsF g f u t).1 = false := by
  intro f
  induction f with
  | zero => intro u t _ _; rfl
  | succ f ih =>
    intro u t hu hsink
    obtain ⟨m, hm⟩ := hsink
    have hL : ¬ u = g.L := by
      intro hc
      rw [hc, hm] at hu
      cases hu
    simp only [dfsF, if_neg hL]
    have main : ∀ (l : List Int) (t₁ : HKState),
        t₁.dist.getD u none = none → t₁.dist.getD g.L none = some m →
        (dfsGo g (dfsF g f) u l t₁).1 = false := by
      intro l
      induction l with
      | nil =>
        intro t₁ _ _
        simp only [dfsGo]
      | cons v vs ihl =>
        intro t₁ hu₁ hm₁
        by_cases hvr : v < 0 ∨ g.rightSize ≤ v
        · simp only [dfsGo, if_pos hvr]
          exact ihl t₁ hu₁ hm₁
        · by_cases hdc : distCheck t₁.dist (nextOf g.L (t₁.matchRight.getD v.toNat 0))
              (t₁.dist.getD u none) = true
          · obtain ⟨hnn, hnlt, hnval⟩ := distCheck_true _ _ _ hdc
            rw [hu₁] at hnval
            have hnval' : t₁.dist.getD (nextOf g.L (t₁.matchRight.getD v.toNat 0)).toNat
                none = none := by rw [hnval]; rfl
            rcases hr : dfsF g f (nextOf g.L (t₁.matchRight.getD v.toNat 0)).toNat t₁
              with ⟨b, t₂⟩
            have hb : b = false := by
              have hib := ih _ t₁ hnval' ⟨m, hm₁⟩
              rw [hr] at hib
              exact hib
            subst hb
            simp only [dfsGo, if_neg hvr, if_pos hdc, hr]
            have hnochg : ∀ z, t₂.dist.getD z none = t₁.dist.getD z none := by
              intro z
              have hnc := dfs_nochange g f (nextOf g.L (t₁.matchRight.getD v.toNat 0)).toNat
                t₁ z hnval'
              rw [hr] at hnc
              exact hnc
            exact ihl t₂ (by rw [hnochg]; exact hu₁) (by rw [hnochg]; exact hm₁)
          · simp only [dfsGo, if_neg hvr, if_neg hdc]
            exact ihl t₁ hu₁ hm₁
    exact main (adj g u) t hu hm

/-! ## C1 machinery: the DFS succeeds on level paths and, failing, keeps them -/

lemma aug_top {g : BipartiteGraph} {mr : List Int} {dist : List (Option Nat)} {u k : Nat}
    (h : Aug g mr dist u k) : ∃ v : Int, v ∈ adj g u ∧ AugTop g mr dist u k v := by
  cases h with
  | free u k v h1 h2 h3 h4 h5 h6 h7 =>
    exact ⟨v, h5, h3, h4, h5, Or.inl ⟨h6, h7⟩⟩
  | step u k v w h1 h2 h3 h4 h5 h6 h7 h8 h9 =>
    exact ⟨v, h5, h3, h4, h5, Or.inr ⟨w, h6, h7, h8, h9⟩⟩

lemma dfs_at_sink (g : BipartiteGraph) (f : Nat) (t : HKState) (hf : 1 ≤ f) :
    dfsF g f g.L t = (true, t) := by
  cases f with
  | zero => exact absurd hf (by omega)
  | succ f' => simp [dfsF]

lemma dfs_branch_sink (g : BipartiteGraph) (f : Nat) (b : Nat) (t₁ t₂ : HKState)
    (hlenR : t₁.matchRight.length = g.Rn) (hmr : MRRange g t₁.matchRight)
    (hr : dfsF g f b t₁ = (false, t₂)) :
    t₂.dist.getD g.L none = t₁.dist.getD g.L none := by
  by_cases hbL : b = g.L
  · subst hbL
    cases f with
    | zero =>
      simp only [dfsF] at hr
      injection hr with h1 h2
      rw [← h2]
    | succ f' =>
      rw [dfs_at_sink g (f' + 1) t₁ (by omega)] at hr
      exact absurd (congrArg Prod.fst hr) (by simp)
  · have hs := dfs_sink g f b t₁ hbL hlenR hmr
    rw [hr] at hs
    exact hs

lemma dfs_branch_facts (g : BipartiteGraph) (f : Nat) (bv : Nat) (t₁ t₂ : HKState) (kb : Nat)
    (hSC : DfsInv g t₁) (hblab : t₁.dist.getD bv none = some kb)
    (hr : dfsF g f bv t₁ = (false, t₂)) :
    t₂.matchLeft = t₁.matchLeft ∧ t₂.matchRight = t₁.matchRight ∧
    DfsInv g t₂ ∧ t₂.dist.getD g.L none = t₁.dist.getD g.L none ∧
    (∀ z j, j < kb → t₁.dist.getD z none = some j → t₂.dist.getD z none = some j) := by
  obtain ⟨hlen₁, hlenR₁, hmrr₁, hD₁⟩ := hSC
  obtain ⟨hml, hmr⟩ := dfs_false_matching g f bv t₁ t₂ hr
  have hshape := dfs_shape g f bv t₁
  rw [hr] at hshape
  have hmono : ∀ z, t₂.dist.getD z none = t₁.dist.getD z none ∨
      t₂.dist.getD z none = none := by
    intro z
    have hmo := dfs_dist_mono g f bv t₁ z
    rw [hr] at hmo
    exact hmo
  refine ⟨hml, hmr, ⟨?_, ?_, ?_, ?_⟩, dfs_branch_sink g f bv t₁ t₂ hlenR₁ hmrr₁ hr, ?_⟩
  · rw [hshape.2.2]; exact hlen₁
  · rw [hmr]; exact hlenR₁
  · rw [hmr]; exact hmrr₁
  · intro z j hz hl
    rcases hmono z with he | he
    · rw [he] at hl
      exact hD₁ z j hz hl
    · rw [he] at hl
      cases hl
  · intro z j hj hl
    have hk := dfs_keep_lower g f bv t₁ z kb j hblab hl hj
    rw [hr] at hk
    exact hk

lemma dfs_AB (g : BipartiteGraph) : ∀ f : Nat,
    (∀ (u k : Nat) (t : HKState), DfsInv g t →
      Aug g t.matchRight t.dist u k → g.L + 2 ≤ f + k →
      (dfsF g f u t).1 = true) ∧
    (∀ (w k : Nat) (t t' : HKState), DfsInv g t →
      t.dist.getD w none = some k → g.L + 2 ≤ f + k →
      dfsF g f w t = (false, t') →
      ∀ (z k' : Nat), Aug g t.matchRight t.dist z k' →
        t'.dist.getD z none = t.dist.getD z none) := by
  intro f
  induction f with
  | zero =>
    constructor
    · intro u k t hSC hAug hfuel
      obtain ⟨huL, hulab⟩ := aug_elim hAug
      have hk := hSC.2.2.2 u k huL hulab
      exact absurd hfuel (by omega)
    · intro w k t t' _ _ _ h z k' _
      simp only [dfsF] at h
      injection h with h1 h2
      rw [← h2]
  | succ f ihf =>
    obtain ⟨ihA, ihB⟩ := ihf
    have A : ∀ (u k : Nat) (t : HKState), DfsInv g t →
        Aug g t.matchRight t.dist u k → g.L + 2 ≤ (f + 1) + k →
        (dfsF g (f + 1) u t).1 = true := by
      intro u k t hSC hAug hfuel
      obtain ⟨huL, hulab⟩ := aug_elim hAug
      have hne : ¬ u = g.L := by omega
      simp only [dfsF, if_neg hne]
      have main : ∀ (l : List Int) (t₁ : HKState), DfsInv g t₁ →
          t₁.dist.getD u none = some k →
          (∃ v : Int, v ∈ l ∧ AugTop g t₁.matchRight t₁.dist u k v) →
          (dfsGo g (dfsF g f) u l t₁).1 = true := by
        intro l
        induction l with
        | nil =>
          rintro t₁ _ _ ⟨v, hv, _⟩
          cases hv
        | cons v₁ vs ihl =>
          rintro t₁ hSC₁ hulab₁ ⟨v, hvmem, hvTop⟩
          have hvTop' := hvTop
          unfold AugTop at hvTop'
          obtain ⟨hv0, hvR, hvadj, htop⟩ := hvTop'
          by_cases hv₁r : v₁ < 0 ∨ g.rightSize ≤ v₁
          · simp only [dfsGo, if_pos hv₁r]
            have hv_vs : v ∈ vs := by
              rcases List.mem_cons.mp hvmem with heq | h
              · exact absurd hv₁r (by omega)
              · exact h
            exact ihl t₁ hSC₁ hulab₁ ⟨v, hv_vs, hvTop⟩
          · by_cases hdc : distCheck t₁.dist (nextOf g.L (t₁.matchRight.getD v₁.toNat 0))
                (t₁.dist.getD u none) = true
            · rcases hr : dfsF g f (nextOf g.L (t₁.matchRight.getD v₁.toNat 0)).toNat t₁
                with ⟨b, t₂⟩
              cases b
              · simp only [dfsGo, if_neg hv₁r, if_pos hdc, hr]
                obtain ⟨_, _, hnval⟩ := distCheck_true _ _ _ hdc
                have hnval' : t₁.dist.getD
                    (nextOf g.L (t₁.matchRight.getD v₁.toNat 0)).toNat none =
                    some (k + 1) := by
                  rw [hnval, hulab₁]
                  rfl
                have hv_vs : v ∈ vs := by
                  rcases List.mem_cons.mp hvmem with heq | h
                  · exfalso
                    subst heq
                    rcases htop with ⟨hm1, hsk⟩ | ⟨w, hmw, hwne, hwlab, hwAug⟩
                    · have hnx : (nextOf g.L (t₁.matchRight.getD v.toNat 0)).toNat =
                          g.L := by
                        unfold nextOf
                        rw [if_pos hm1]
                        exact Int.toNat_natCast g.L
                      rw [hnx] at hr
                      have hk : k ≤ g.L := hSC₁.2.2.2 u k huL hulab₁
                      rw [dfs_at_sink g f t₁ (by omega)] at hr
                      exact absurd (congrArg Prod.fst hr) (by simp)
                    · have hnx : (nextOf g.L (t₁.matchRight.getD v.toNat 0)).toNat =
                          w := by
                        unfold nextOf
                        rw [hmw, if_neg (by omega)]
                        exact Int.toNat_natCast w
                      rw [hnx] at hr
                      have hA' := ihA w (k + 1) t₁ hSC₁ hwAug (by omega)
                      rw [hr] at hA'
                      exact absurd hA' (by simp)
                  · exact h
                obtain ⟨hml₂, hmr₂, hSC₂, hsinkEq, hkeep⟩ :=
                  dfs_branch_facts g f _ t₁ t₂ (k + 1) hSC₁ hnval' hr
                have hBz := ihB _ (k + 1) t₁ t₂ hSC₁ hnval' (by omega) hr
                have hulab₂ : t₂.dist.getD u none = some k := hkeep u k (by omega) hulab₁
                have htop₂ : AugTop g t₂.matchRight t₂.dist u k v := by
                  unfold AugTop
                  refine ⟨hv0, hvR, hvadj, ?_⟩
                  rcases htop with ⟨hm1, hsk⟩ | ⟨w, hmw, hwne, hwlab, hwAug⟩
                  · exact Or.inl ⟨by rw [hmr₂]; exact hm1, by rw [hsinkEq]; exact hsk⟩
                  · refine Or.inr ⟨w, by rw [hmr₂]; exact hmw, hwne,
                      by rw [hBz w (k + 1) hwAug]; exact hwlab, ?_⟩
                    rw [hmr₂]
                    exact aug_persist g t₁.matchRight t₁.dist t₂.dist hsinkEq hBz w (k + 1)
                      hwAug
                exact ihl t₂ hSC₂ hulab₂ ⟨v, hv_vs, htop₂⟩
              · simp only [dfsGo, if_neg hv₁r, if_pos hdc, hr]
            · simp only [dfsGo, if_neg hv₁r, if_neg hdc]
              have hv_vs : v ∈ vs := by
                rcases List.mem_cons.mp hvmem with heq | h
                · exfalso
                  subst heq
                  apply hdc
                  rw [hulab₁]
                  rcases htop with ⟨hm1, hsk⟩ | ⟨w, hmw, hwne, hwlab, hwAug⟩
                  · have hnx : nextOf g.L (t₁.matchRight.getD v.toNat 0) =
                        ((g.L : Nat) : Int) := by
                      unfold nextOf
                      rw [if_pos hm1]
                    rw [hnx]
                    refine distCheck_intro _ _ k (by omega) ?_ ?_
                    · rw [Int.toNat_natCast, hSC₁.1]
                      omega
                    · rw [Int.toNat_natCast]
                      exact hsk
                  · have hnx : nextOf g.L (t₁.matchRight.getD v.toNat 0) =
                        ((w : Nat) : Int) := by
                      unfold nextOf
                      rw [hmw, if_neg (by omega)]
                    rw [hnx]
                    have hwL : w < g.L := (aug_elim hwAug).1
                    refine distCheck_intro _ _ k (by omega) ?_ ?_
                    · rw [Int.toNat_natCast, hSC₁.1]
                      omega
                    · rw [Int.toNat_natCast]
                      exact hwlab
                · exact h
              exact ihl t₁ hSC₁ hulab₁ ⟨v, hv_vs, hvTop⟩
      obtain ⟨v, hvadj, hvTop⟩ := aug_top hAug
      exact main (adj g u) t hSC hulab ⟨v, hvadj, hvTop⟩
    refine ⟨A, ?_⟩
    intro w k t t' hSC hwlab hfuel hcall z kz hAugz
    by_cases hwL : w = g.L
    · subst hwL
      rw [dfs_at_sink g (f + 1) t (by omega)] at hcall
      exact absurd (congrArg Prod.fst hcall) (by simp)
    · have hzw : z ≠ w := by
        intro heq
        rw [heq] at hAugz
        obtain ⟨hzL, hzlab⟩ := aug_elim hAugz
        rw [hwlab] at hzlab
        have hkk := Option.some.inj hzlab
        have hAcall := A w kz t hSC hAugz (by omega)
        rw [hcall] at hAcall
        exact absurd hAcall (by simp)
      simp only [dfsF, if_neg hwL] at hcall
      have mainB : ∀ (l : List Int) (t₁ t₂ : HKState), DfsInv g t₁ →
          t₁.dist.getD w none = some k →
          dfsGo g (dfsF g f) w l t₁ = (false, t₂) →
          ∀ (z' k'' : Nat), z' ≠ w → Aug g t₁.matchRight t₁.dist z' k'' →
            t₂.dist.getD z' none = t₁.dist.getD z' none := by
        intro l
        induction l with
        | nil =>
          intro t₁ t₂ _ _ hgo z' k'' hzw' _
          simp only [dfsGo] at hgo
          injection hgo with h1 h2
          rw [← h2]
          show (t₁.dist.set w none).getD z' none = t₁.dist.getD z' none
          exact getD_set_ne _ _ _ (fun hc => hzw' hc.symm)
        | cons v₁ vs ihl =>
          intro t₁ t₂ hSC₁ hwlab₁ hgo z' k'' hzw' hAug'
          by_cases hv₁r : v₁ < 0 ∨ g.rightSize ≤ v₁
          · simp only [dfsGo, if_pos hv₁r] at hgo
            exact ihl t₁ t₂ hSC₁ hwlab₁ hgo z' k'' hzw' hAug'
          · by_cases hdc : distCheck t₁.dist (nextOf g.L (t₁.matchRight.getD v₁.toNat 0))
                (t₁.dist.getD w none) = true
            · rcases hr : dfsF g f (nextOf g.L (t₁.matchRight.getD v₁.toNat 0)).toNat t₁
                with ⟨b, t₃⟩
              cases b
              · simp only [dfsGo, if_neg hv₁r, if_pos hdc, hr] at hgo
                obtain ⟨_, _, hnval⟩ := distCheck_true _ _ _ hdc
                have hnval' : t₁.dist.getD
                    (nextOf g.L (t₁.matchRight.getD v₁.toNat 0)).toNat none =
                    some (k + 1) := by
                  rw [hnval, hwlab₁]
                  rfl
                obtain ⟨hml₃, hmr₃, hSC₃, hsinkEq, hkeep⟩ :=
                  dfs_branch_facts g f _ t₁ t₃ (k + 1) hSC₁ hnval' hr
                have hBz := ihB _ (k + 1) t₁ t₃ hSC₁ hnval' (by omega) hr
                have hwlab₃ : t₃.dist.getD w none = some k := hkeep w k (by omega) hwlab₁
                have hAug₃ : Aug g t₃.matchRight t₃.dist z' k'' := by
                  rw [hmr₃]
                  exact aug_persist g t₁.matchRight t₁.dist t₃.dist hsinkEq hBz z' k'' hAug'
                have h1 := ihl t₃ t₂ hSC₃ hwlab₃ hgo z' k'' hzw' hAug₃
                rw [h1]
                exact hBz z' k'' hAug'
              · simp only [dfsGo, if_neg hv₁r, if_pos hdc, hr] at hgo
                exact absurd (congrArg Prod.fst hgo) (by simp)
            · simp only [dfsGo, if_neg hv₁r, if_neg hdc] at hgo
              exact ihl t₁ t₂ hSC₁ hwlab₁ hgo z' k'' hzw' hAug'
      exact mainB (adj g w) t t' hSC hwlab hcall z kz hzw hAugz

/-! ## C1 machinery: every reachable phase augments, so the loop exits via `bfs` -/

lemma passGo_counter_le (g : BipartiteGraph) (fuel : Nat) :
    ∀ (us : List Nat) (t : HKState) (c : Nat), c ≤ (passGo g fuel us t c).2 := by
  intro us
  induction us with
  | nil => intro t c; exact le_refl _
  | cons u us' ih =>
    intro t c
    by_cases hfree : t.matchLeft.getD u 0 = -1
    · rcases hr : dfsF g fuel u t with ⟨b, s'⟩
      cases b
      · simp only [passGo, if_pos hfree, hr]
        exact ih s' c
      · simp only [passGo, if_pos hfree, hr]
        calc c ≤ c + 1 := by omega
          _ ≤ (passGo g fuel us' s' (c + 1)).2 := ih s' (c + 1)
    · simp only [passGo, if_neg hfree]
      exact ih t c

lemma passGo_progress (g : BipartiteGraph) :
    ∀ (us : List Nat) (t : HKState) (cnt : Nat),
      DfsInv g t → t.matchLeft.length = g.L → (∀ x ∈ us, x < g.L) →
      (∃ u₀, u₀ ∈ us ∧ t.matchLeft.getD u₀ (-1) = -1 ∧
        Aug g t.matchRight t.dist u₀ 0) →
      cnt + 1 ≤ (passGo g (g.L + 2) us t cnt).2 := by
  intro us
  induction us with
  | nil =>
    rintro t cnt _ _ _ ⟨u₀, h, _⟩
    cases h
  | cons u us' ih =>
    rintro t cnt hSC hlenL hlt ⟨u₀, hmem, hfree, hAug⟩
    obtain ⟨hu₀L, hu₀lab⟩ := aug_elim hAug
    have huL : u < g.L := hlt u (List.mem_cons_self _ _)
    by_cases hfreeu : t.matchLeft.getD u 0 = -1
    · rcases hr : dfsF g (g.L + 2) u t with ⟨b, s'⟩
      cases b
      · simp only [passGo, if_pos hfreeu, hr]
        have hne : u₀ ≠ u := by
          intro heq
          rw [heq] at hAug
          have hA := (dfs_AB g (g.L + 2)).1 u 0 t hSC hAug (by omega)
          rw [hr] at hA
          exact absurd hA (by simp)
        have hmem' : u₀ ∈ us' := by
          rcases List.mem_cons.mp hmem with heq | h
          · exact absurd heq hne
          · exact h
        rcases hulab : t.dist.getD u none with _ | j
        · have hnochg : ∀ z, s'.dist.getD z none = t.dist.getD z none := by
            intro z
            have hnc := dfs_nochange g (g.L + 2) u t z hulab
            rw [hr] at hnc
            exact hnc
          obtain ⟨hml', hmr'⟩ := dfs_false_matching g (g.L + 2) u t s' hr
          have hSC' : DfsInv g s' := by
            obtain ⟨h1, h2, h3, h4⟩ := hSC
            refine ⟨?_, ?_, ?_, ?_⟩
            · have hshape := dfs_shape g (g.L + 2) u t
              rw [hr] at hshape
              rw [hshape.2.2]
              exact h1
            · rw [hmr']; exact h2
            · rw [hmr']; exact h3
            · intro z jj hz hl
              rw [hnochg] at hl
              exact h4 z jj hz hl
          refine ih s' cnt hSC' (by rw [hml']; exact hlenL)
            (fun x hx => hlt x (List.mem_cons_of_mem _ hx)) ⟨u₀, hmem', ?_, ?_⟩
          · rw [hml']; exact hfree
          · rw [hmr']
            exact aug_persist g t.matchRight t.dist s'.dist (hnochg g.L)
              (fun z k' _ => hnochg z) u₀ 0 hAug
        · have hB := (dfs_AB g (g.L + 2)).2 u j t s' hSC hulab (by omega) hr
          obtain ⟨hml', hmr', hSC', hsinkEq, _⟩ :=
            dfs_branch_facts g (g.L + 2) u t s' j hSC hulab hr
          refine ih s' cnt hSC' (by rw [hml']; exact hlenL)
            (fun x hx => hlt x (List.mem_cons_of_mem _ hx)) ⟨u₀, hmem', ?_, ?_⟩
          · rw [hml']; exact hfree
          · rw [hmr']
            exact aug_persist g t.matchRight t.dist s'.dist hsinkEq hB u₀ 0 hAug
      · simp only [passGo, if_pos hfreeu, hr]
        have hc := passGo_counter_le g (g.L + 2) us' s' (cnt + 1)
        omega
    · simp only [passGo, if_neg hfreeu]
      have hmem' : u₀ ∈ us' := by
        rcases List.mem_cons.mp hmem with heq | h
        · exfalso
          apply hfreeu
          rw [← heq]
          have hu₀len : u₀ < t.matchLeft.length := by omega
          rw [getD_congr t.matchLeft u₀ 0 (-1) hu₀len]
          exact hfree
        · exact h
      exact ih t cnt hSC hlenL (fun x hx => hlt x (List.mem_cons_of_mem _ hx))
        ⟨u₀, hmem', hfree, hAug⟩

lemma hkLoop_exit (g : BipartiteGraph) :
    ∀ (fuel : Nat) (s : HKState) (cnt : Nat), MatchInv g s →
      g.L + 1 ≤ fuel + matchedCount s.matchLeft →
      (bfsDist g ((hkLoop g fuel s cnt).1).matchLeft
        ((hkLoop g fuel s cnt).1).matchRight).getD g.L none = none := by
  intro fuel
  induction fuel with
  | zero =>
    intro s cnt hinv hf
    have h1 := matchedCount_le s.matchLeft
    have h2 : s.matchLeft.length = g.L := hinv.1
    exact absurd hf (by omega)
  | succ fuel ih =>
    intro s cnt hinv hf
    by_cases hreach : bfsReachable g (bfsDist g s.matchLeft s.matchRight) = true
    · simp only [hkLoop, if_pos hreach]
      obtain ⟨hlenL, hlenR, hlenD, hLc, hRc⟩ := hinv
      have hmrr : MRRange g s.matchRight :=
        minv_mrrange g s ⟨hlenL, hlenR, hlenD, hLc, hRc⟩
      obtain ⟨hZ, hP⟩ := bfsDist_PZ g s.matchLeft s.matchRight hlenL hlenR hmrr
      obtain ⟨m, hm⟩ : ∃ m, (bfsDist g s.matchLeft s.matchRight).getD g.L none =
          some m := by
        unfold bfsReachable at hreach
        exact Option.isSome_iff_exists.mp hreach
      obtain ⟨u₀, hu₀L, hu₀free, hu₀Aug⟩ := aug_exists g s.matchLeft s.matchRight
        (bfsDist g s.matchLeft s.matchRight) hlenL hlenR hmrr hZ hP m hm
      have hSC : DfsInv g { s with dist := bfsDist g s.matchLeft s.matchRight } := by
        refine ⟨?_, hlenR, hmrr, ?_⟩
        · show (bfsDist g s.matchLeft s.matchRight).length = g.L + 1
          rw [bfsDist_length, hlenL]
        · intro z j hz hl
          exact parentok_label_le g s.matchRight _ hP z j hz hl
      have hpass := passGo_inv g (g.L + 2) (List.range g.L)
        { s with dist := bfsDist g s.matchLeft s.matchRight } cnt
        (minv_bfs_state g s ⟨hlenL, hlenR, hlenD, hLc, hRc⟩)
        (List.nodup_range _) (fun x hx => List.mem_range.mp hx)
        (fun x hx hfr => bfsDist_free g s.matchLeft s.matchRight x
          (by rw [hlenL]; exact List.mem_range.mp hx) hfr)
      have hprog := passGo_progress g (List.range g.L)
        { s with dist := bfsDist g s.matchLeft s.matchRight } cnt hSC hlenL
        (fun x hx => List.mem_range.mp hx)
        ⟨u₀, List.mem_range.mpr hu₀L, hu₀free, hu₀Aug⟩
      obtain ⟨hp1, hp2⟩ := hpass
      have hml : ({ s with dist := bfsDist g s.matchLeft s.matchRight } :
          HKState).matchLeft = s.matchLeft := rfl
      rw [hml] at hp2
      exact ih _ _ hp1 (by omega)
    · simp only [hkLoop, if_neg hreach]
      have h1 : ({ s with dist := bfsDist g s.matchLeft s.matchRight } :
          HKState).matchLeft = s.matchLeft := rfl
      have h2 : ({ s with dist := bfsDist g s.matchLeft s.matchRight } :
          HKState).matchRight = s.matchRight := rfl
      rw [h1, h2]
      unfold bfsReachable at hreach
      rcases hx : (bfsDist g s.matchLeft s.matchRight).getD g.L none with _ | x
      · rfl
      · rw [hx] at hreach
        simp at hreach

/-! ## C1: maximality via the König-style cover induced by the last `bfs` -/

lemma koenig_bound (g : BipartiteGraph) (ml mr : List Int)
    (hlenL : ml.length = g.L) (hlenR : mr.length = g.Rn)
    (hL : ∀ u, u < g.L → leftConsAt g ml mr u)
    (hR : ∀ v, v < g.Rn → rightConsAt g ml mr v)
    (hsink : (bfsDist g ml mr).getD g.L none = none) :
    ∀ P : Finset (Nat × Nat), IsMatchingOf g P → P.card ≤ matchedCount ml := by
  intro P hP
  obtain ⟨hPmem, hPdisj⟩ := hP
  have hmrr : MRRange g mr := by
    intro i hi
    have hiRn : i < g.Rn := by omega
    rcases hR i hiRn with h1 | ⟨h0, hlt, _⟩
    · exact Or.inl h1
    · exact Or.inr ⟨h0, hlt⟩
  have hexp := bfsDist_expand g ml mr hlenL hlenR hmrr hsink
  have step1 : P.card ≤
      ((Finset.range g.L).filter
          (fun a => (bfsDist g ml mr).getD a none = none)).card +
      ((Finset.range g.Rn).filter
          (fun b => mr.getD b (-1) ≠ -1 ∧
            (bfsDist g ml mr).getD (mr.getD b (-1)).toNat none ≠ none)).card := by
    rw [← Finset.card_disjSum]
    apply Finset.card_le_card_of_injOn
      (fun p => if (bfsDist g ml mr).getD p.1 none = none then Sum.inl p.1
        else Sum.inr p.2)
    · intro p hp
      obtain ⟨hpL, hpR, hpadj⟩ := hPmem p hp
      by_cases hnone : (bfsDist g ml mr).getD p.1 none = none
      · rw [if_pos hnone, Finset.inl_mem_disjSum]
        exact Finset.mem_filter.mpr ⟨Finset.mem_range.mpr hpL, hnone⟩
      · rw [if_neg hnone, Finset.inr_mem_disjSum]
        have hrs : ((p.2 : Nat) : Int) < g.rightSize := by
          have hrn : g.Rn = g.rightSize.toNat := rfl
          omega
        have hE := hexp p.1 hpL hnone ((p.2 : Nat) : Int) hpadj (by omega) hrs
        rw [Int.toNat_natCast] at hE
        have hblen : p.2 < mr.length := by omega
        have hdget : mr.getD p.2 0 = mr.getD p.2 (-1) := (getD_congr _ _ _ _ hblen).symm
        rw [hdget] at hE
        by_cases hm1 : mr.getD p.2 (-1) = -1
        · exfalso
          unfold tgtOf at hE
          rw [if_pos hm1] at hE
          exact hE hsink
        · refine Finset.mem_filter.mpr ⟨Finset.mem_range.mpr hpR, hm1, ?_⟩
          unfold tgtOf at hE
          rw [if_neg hm1] at hE
          exact hE
    · intro p hp q hq hfeq
      have hfeq' : (if (bfsDist g ml mr).getD p.1 none = none then Sum.inl p.1
          else Sum.inr p.2) = (if (bfsDist g ml mr).getD q.1 none = none then Sum.inl q.1
          else Sum.inr q.2) := hfeq
      clear hfeq
      rename' hfeq' => hfeq
      by_cases hp1 : (bfsDist g ml mr).getD p.1 none = none <;>
        by_cases hq1 : (bfsDist g ml mr).getD q.1 none = none
      · rw [if_pos hp1, if_pos hq1] at hfeq
        have h1 : p.1 = q.1 := Sum.inl.inj hfeq
        have h2 : p.2 = q.2 := (hPdisj p hp q hq).mp h1
        exact Prod.ext h1 h2
      · rw [if_pos hp1, if_neg hq1] at hfeq
        simp at hfeq
      · rw [if_neg hp1, if_pos hq1] at hfeq
        simp at hfeq
      · rw [if_neg hp1, if_neg hq1] at hfeq
        have h2 : p.2 = q.2 := Sum.inr.inj hfeq
        have h1 : p.1 = q.1 := (hPdisj p hp q hq).mpr h2
        exact Prod.ext h1 h2
  have step2 :
      ((Finset.range g.L).filter
          (fun a => (bfsDist g ml mr).getD a none = none)).card +
      ((Finset.range g.Rn).filter
          (fun b => mr.getD b (-1) ≠ -1 ∧
            (bfsDist g ml mr).getD (mr.getD b (-1)).toNat none ≠ none)).card ≤
      matchedCount ml := by
    unfold matchedCount
    rw [hlenL, ← Finset.card_disjSum]
    apply Finset.card_le_card_of_injOn
      (fun x => Sum.elim (fun a => a) (fun b => (mr.getD b (-1)).toNat) x)
    · intro x hx
      rcases x with a | b
      · simp only [Sum.elim_inl]
        rw [Finset.inl_mem_disjSum] at hx
        obtain ⟨ha1, ha2⟩ := Finset.mem_filter.mp hx
        have haL := Finset.mem_range.mp ha1
        refine Finset.mem_filter.mpr ⟨ha1, ?_⟩
        intro hfree
        have hf0 := bfsDist_free g ml mr a (by omega) hfree
        rw [hf0] at ha2
        cases ha2
      · simp only [Sum.elim_inr]
        rw [Finset.inr_mem_disjSum] at hx
        obtain ⟨hb1, hb2, hb3⟩ := Finset.mem_filter.mp hx
        have hbRn := Finset.mem_range.mp hb1
        rcases hR b hbRn with h1 | ⟨h0, hlt, hback⟩
        · exact absurd h1 hb2
        · refine Finset.mem_filter.mpr ⟨Finset.mem_range.mpr ?_, ?_⟩
          · have hld : g.L = g.leftSize.toNat := rfl
            omega
          · rw [hback]
            omega
    · intro x hx y hy hfeq
      simp only [Finset.mem_coe] at hx hy
      rcases x with a | b <;> rcases y with a' | b'
      · simp only [Sum.elim_inl] at hfeq
        rw [hfeq]
      · simp only [Sum.elim_inl, Sum.elim_inr] at hfeq
        rw [Finset.inl_mem_disjSum] at hx
        rw [Finset.inr_mem_disjSum] at hy
        obtain ⟨ha1, ha2⟩ := Finset.mem_filter.mp hx
        obtain ⟨hb1, hb2, hb3⟩ := Finset.mem_filter.mp hy
        exfalso
        rw [← hfeq] at hb3
        exact hb3 ha2
      · simp only [Sum.elim_inl, Sum.elim_inr] at hfeq
        rw [Finset.inr_mem_disjSum] at hx
        rw [Finset.inl_mem_disjSum] at hy
        obtain ⟨hb1, hb2, hb3⟩ := Finset.mem_filter.mp hx
        obtain ⟨ha1, ha2⟩ := Finset.mem_filter.mp hy
        exfalso
        rw [hfeq] at hb3
        exact hb3 ha2
      · simp only [Sum.elim_inr] at hfeq
        rw [Finset.inr_mem_disjSum] at hx hy
        obtain ⟨hb1, hb2, _⟩ := Finset.mem_filter.mp hx
        obtain ⟨hb1', hb2', _⟩ := Finset.mem_filter.mp hy
        rcases hR b (Finset.mem_range.mp hb1) with h1 | ⟨h0, hlt, hback⟩
        · exact absurd h1 hb2
        · rcases hR b' (Finset.mem_range.mp hb1') with h1' | ⟨h0', hlt', hback'⟩
          · exact absurd h1' hb2'
          · have hmm : mr.getD b (-1) = mr.getD b' (-1) := by omega
            rw [hmm] at hback
            rw [hback] at hback'
            have hbb : b = b' := by omega
            rw [hbb]
  exact le_trans step1 step2

/-- **C1.** The matching returned by `findMaximumMatching` has maximum
cardinality: no valid matching of the graph (a set of vertex-disjoint pairs,
each along a listed in-range edge) has more pairs than the returned `size`.
Stated for every graph, so in particular for every graph built by
`createBipartiteGraph`. -/
theorem findMaximumMatching_maximum (g : BipartiteGraph) (P : Finset (Nat × Nat))
    (hP : IsMatchingOf g P) : P.card ≤ (findMaximumMatching g).size := by
  obtain ⟨hsz, hminv⟩ := findMaximumMatching_size_eq g
  obtain ⟨hlenL, hlenR, hlenD, hLc, hRc⟩ := hminv
  have hexit := hkLoop_exit g (g.L + 1) (initState g) 0 (initState_minv g) (by omega)
  have hfinal : (findMaximumMatchingFrom g (initState g)).2 =
      (hkLoop g (g.L + 1) (initState g) 0).1 := rfl
  rw [hfinal] at hlenL hlenR hLc hRc
  have hbound := koenig_bound g ((hkLoop g (g.L + 1) (initState g) 0).1).matchLeft
    ((hkLoop g (g.L + 1) (initState g) 0).1).matchRight hlenL hlenR hLc hRc hexit P hP
  have hszEq : (findMaximumMatching g).size =
      matchedCount ((hkLoop g (g.L + 1) (initState g) 0).1).matchLeft := by
    rw [hsz]
    rfl
  omega

/-- Witness for C1 at the one-edge graph and its one-pair candidate matching. -/
theorem findMaximumMatching_maximum_witness :
    IsMatchingOf gPair pPair ∧ pPair.card ≤ (findMaximumMatching gPair).size :=
  ⟨by unfold IsMatchingOf; decide,
    findMaximumMatching_maximum gPair pPair (by unfold IsMatchingOf; decide)⟩
